import Mathlib

/-
Shallow embedding of the CABnis repository (a compacted A-Bruijn graph
builder) and verification of its specification claims.

Layout:
* namespace `cocktail` — the k-mer codec used by the program (the codec is an
  external collaborator of the repository; it is modelled from the spec §4.1).
* namespace `graphkmer` — src/graph/kmer.rs: the gap-tolerant oracle with
  self/palindrome exclusion, and the `Viewed` set.
* namespace `utilskmer` — the older oracle variant of src/graph.rs (`Graph`)
  and src/utils.rs (`Kmer`), whose `successors` performs no exclusion and
  whose `predecessors` excludes only the k-mer itself.
* namespace `utils` — src/utils.rs: `add_kmer_in_tig`, `build_tig`,
  `create_link`, `normalize_*_2tuple`.
* namespace `unitig` — src/graph/unitig.rs: the unitig graph, `build_link`,
  `tig_kmer_tig`, `tig_kmer_kmer_tig`, `write_unitig`.
Machine integers are modelled as `Nat`; the u64 arithmetic involved never
overflows for k ≤ 31, and all values are proved to stay below `4^k`.
-/

namespace cocktail

/-- Modelled from the spec: encoding `A=00, C=01, T=10, G=11` (§3); value of
one nucleotide character. -/
def nucVal (c : Char) : Nat :=
  if c = 'A' then 0 else if c = 'C' then 1 else if c = 'T' then 2 else 3

/-- Modelled from the spec: inverse nucleotide encoding, used by
`kmer2seq`. -/
def nucChar (d : Nat) : Char :=
  if d = 0 then 'A' else if d = 1 then 'C' else if d = 2 then 'T' else 'G'

/-- Modelled from the spec: `seq2bit` packs a DNA string 2 bits per
nucleotide, the low 2 bits holding the last nucleotide (§3, §4.1). -/
def seq2bit (s : List Char) : Nat :=
  s.foldl (fun acc c => acc * 4 + nucVal c) 0

/-- Modelled from the spec: `kmer2seq(x, k)` unpacks `k` nucleotides, the low
2 bits being the last character (§4.1). -/
def kmer2seq (x : Nat) : Nat → List Char
  | 0 => []
  | k + 1 => kmer2seq (x / 4) k ++ [nucChar (x % 4)]

/-- Modelled from the spec: `revcomp` inverts each 2-bit nucleotide
(`A↔T`, `C↔G`, i.e. xor with `0b10`) and reverses the nucleotide order
(§4.1). -/
def revcomp (x : Nat) : Nat → Nat
  | 0 => 0
  | k + 1 => (x % 4 ^^^ 2) * 4 ^ k + revcomp (x / 4) k

/-- Modelled from the spec: `cannonical(x, k) = min(x, revcomp(x, k))`
(§4.1; the source spells the name with two n). -/
def cannonical (x k : Nat) : Nat := min x (revcomp x k)

/-- Modelled from the spec: `remove_first_bit(x) = x & ((1 << (2k−1)) − 1)`
(§4.1). -/
def remove_first_bit (k x : Nat) : Nat := x &&& (1 <<< (2 * k - 1)) - 1

/-- Modelled from the spec: `kmer_space_size(k) = 1 << (2k − 1)` (§4.1). -/
def get_kmer_space_size (k : Nat) : Nat := 1 <<< (2 * k - 1)

theorem kmer2seq_length (x k : Nat) : (kmer2seq x k).length = k := by
  induction k generalizing x with
  | zero => rfl
  | succ k ih => simp [kmer2seq, ih]

theorem nucVal_nucChar {d : Nat} (h : d < 4) : nucVal (nucChar d) = d := by
  interval_cases d <;> rfl

theorem nucVal_lt (c : Char) : nucVal c < 4 := by
  unfold nucVal
  split <;> try omega
  split <;> try omega
  split <;> omega

theorem seq2bit_append (s : List Char) (c : Char) :
    seq2bit (s ++ [c]) = seq2bit s * 4 + nucVal c := by
  simp [seq2bit, List.foldl_append]

theorem seq2bit_lt (s : List Char) : seq2bit s < 4 ^ s.length := by
  induction s using List.reverseRecOn with
  | nil => simp [seq2bit]
  | append_singleton s c ih =>
    rw [seq2bit_append]
    have := nucVal_lt c
    simp only [List.length_append, List.length_singleton, pow_succ]
    omega

theorem seq2bit_kmer2seq {x k : Nat} (h : x < 4 ^ k) :
    seq2bit (kmer2seq x k) = x := by
  induction k generalizing x with
  | zero =>
    interval_cases x
    rfl
  | succ k ih =>
    have hx4 : x / 4 < 4 ^ k := by
      rw [Nat.div_lt_iff_lt_mul (by omega)]
      calc x < 4 ^ (k + 1) := h
      _ = 4 ^ k * 4 := by ring
    rw [kmer2seq, seq2bit_append, ih hx4, nucVal_nucChar (Nat.mod_lt _ (by omega))]
    omega

theorem kmer2seq_high {a b k : Nat} (ha : a < 4) (hb : b < 4 ^ k) :
    kmer2seq (a * 4 ^ k + b) (k + 1) = nucChar a :: kmer2seq b k := by
  induction k generalizing b with
  | zero =>
    interval_cases b
    simp [kmer2seq, Nat.mod_eq_of_lt ha, Nat.div_eq_of_lt ha]
  | succ k ih =>
    have hmod : (a * 4 ^ (k + 1) + b) % 4 = b % 4 := by
      conv_lhs => rw [pow_succ, ← Nat.mul_assoc, Nat.mul_comm (a * 4 ^ k) 4]
      rw [Nat.mul_add_mod]
    have hdiv : (a * 4 ^ (k + 1) + b) / 4 = a * 4 ^ k + b / 4 := by
      conv_lhs => rw [pow_succ, ← Nat.mul_assoc, Nat.mul_comm (a * 4 ^ k) 4]
      rw [Nat.mul_add_div (by omega)]
    have hb4 : b / 4 < 4 ^ k := by
      rw [Nat.div_lt_iff_lt_mul (by omega)]
      calc b < 4 ^ (k + 1) := hb
      _ = 4 ^ k * 4 := by ring
    rw [kmer2seq, hmod, hdiv, ih hb4, kmer2seq]
    simp

theorem revcomp_lt (x k : Nat) : revcomp x k < 4 ^ k := by
  induction k generalizing x with
  | zero => simp [revcomp]
  | succ k ih =>
    have h1 : x % 4 ^^^ 2 < 4 := Nat.xor_lt_two_pow (n := 2) (Nat.mod_lt _ (by omega)) (by omega)
    have h2 : revcomp (x / 4) k < 4 ^ k := ih _
    rw [revcomp, pow_succ]
    calc (x % 4 ^^^ 2) * 4 ^ k + revcomp (x / 4) k
        ≤ 3 * 4 ^ k + revcomp (x / 4) k := by
          have : x % 4 ^^^ 2 ≤ 3 := by omega
          exact Nat.add_le_add_right (Nat.mul_le_mul_right _ this) _
      _ < 4 ^ k * 4 := by omega

theorem revcomp_high {a b k : Nat} (ha : a < 4) (hb : b < 4 ^ k) :
    revcomp (a * 4 ^ k + b) (k + 1) = revcomp b k * 4 + (a ^^^ 2) := by
  induction k generalizing b with
  | zero =>
    interval_cases b
    simp [revcomp, Nat.mod_eq_of_lt ha, Nat.div_eq_of_lt ha]
  | succ k ih =>
    have hmod : (a * 4 ^ (k + 1) + b) % 4 = b % 4 := by
      conv_lhs => rw [pow_succ, ← Nat.mul_assoc, Nat.mul_comm (a * 4 ^ k) 4]
      rw [Nat.mul_add_mod]
    have hdiv : (a * 4 ^ (k + 1) + b) / 4 = a * 4 ^ k + b / 4 := by
      conv_lhs => rw [pow_succ, ← Nat.mul_assoc, Nat.mul_comm (a * 4 ^ k) 4]
      rw [Nat.mul_add_div (by omega)]
    have hb4 : b / 4 < 4 ^ k := by
      rw [Nat.div_lt_iff_lt_mul (by omega)]
      calc b < 4 ^ (k + 1) := hb
      _ = 4 ^ k * 4 := by ring
    rw [revcomp, hmod, hdiv, ih hb4, revcomp, pow_succ]
    ring

theorem xor_two_xor_two (a : Nat) (h : a < 4) : a ^^^ 2 ^^^ 2 = a := by
  interval_cases a <;> rfl

theorem revcomp_revcomp {x k : Nat} (h : x < 4 ^ k) :
    revcomp (revcomp x k) k = x := by
  induction k generalizing x with
  | zero =>
    interval_cases x
    rfl
  | succ k ih =>
    have hx4 : x / 4 < 4 ^ k := by
      rw [Nat.div_lt_iff_lt_mul (by omega)]
      calc x < 4 ^ (k + 1) := h
      _ = 4 ^ k * 4 := by ring
    have hc : x % 4 ^^^ 2 < 4 := Nat.xor_lt_two_pow (n := 2) (Nat.mod_lt _ (by omega)) (by omega)
    have hinner : revcomp x (k + 1) = (x % 4 ^^^ 2) * 4 ^ k + revcomp (x / 4) k := rfl
    rw [hinner, revcomp_high hc (revcomp_lt _ _), ih hx4,
      xor_two_xor_two _ (Nat.mod_lt _ (by omega))]
    omega

theorem cannonical_lt {x k : Nat} (h : x < 4 ^ k) : cannonical x k < 4 ^ k := by
  unfold cannonical
  exact lt_of_le_of_lt (Nat.min_le_left _ _) h

theorem cannonical_revcomp {x k : Nat} (h : x < 4 ^ k) :
    cannonical (revcomp x k) k = cannonical x k := by
  unfold cannonical
  rw [revcomp_revcomp h, Nat.min_comm]

theorem cannonical_idem {x k : Nat} (h : x < 4 ^ k) :
    cannonical (cannonical x k) k = cannonical x k := by
  unfold cannonical
  rcases le_total x (revcomp x k) with hle | hle
  · rw [min_eq_left hle, min_eq_left hle]
  · rw [min_eq_right hle, revcomp_revcomp h, Nat.min_comm, min_eq_right hle]

theorem remove_first_bit_lt {k : Nat} (hk : 1 ≤ k) (x : Nat) :
    remove_first_bit k x < get_kmer_space_size k := by
  unfold remove_first_bit get_kmer_space_size
  simp only [Nat.shiftLeft_eq, Nat.one_mul, Nat.and_pow_two_sub_one_eq_mod]
  exact Nat.mod_lt _ (Nat.pos_pow_of_pos _ (by omega))

end cocktail

namespace tables

/-- Embeds the recursion of `build_kmermasks` (identical in
src/graph/kmer.rs:27, src/graph.rs:26 and src/utils.rs:25): the mask starts at
`(1 << 2k) − 1` and is shifted right by 2 before each push. -/
def buildKmermasksGo : Nat → Nat → List Nat
  | _, 0 => []
  | mask, n + 1 => (mask >>> 2) :: buildKmermasksGo (mask >>> 2) n

/-- Embeds `build_kmermasks(deep, k)`. -/
def build_kmermasks (deep k : Nat) : List Nat :=
  buildKmermasksGo ((1 <<< (k * 2)) - 1) deep

/-- Embeds the `"ACTG"` nucleotide alphabet iterated by `build_subkmer`. -/
def nucs : List Char := ['A', 'C', 'T', 'G']

/-- Embeds `multi_cartesian_product` over `length` copies of `nucs`, the last
position varying fastest, as consumed by `build_subkmer`. -/
def multiProd : Nat → List (List Char)
  | 0 => [[]]
  | n + 1 => (multiProd n).flatMap (fun w => nucs.map (fun c => w ++ [c]))

/-- Embeds `build_subkmer(deep)` (identical in src/graph/kmer.rs:40,
src/graph.rs:39 and src/utils.rs:38): entry `i` holds `seq2bit` of every
length-`(i+1)` word over `ACTG`. -/
def build_subkmer (deep : Nat) : List (List Nat) :=
  (List.range deep).map (fun i => (multiProd (i + 1)).map cocktail.seq2bit)

theorem buildKmermasksGo_getD {mask n d : Nat} (h : d < n) :
    (buildKmermasksGo mask n).getD d 0 = mask >>> (2 * (d + 1)) := by
  induction n generalizing mask d with
  | zero => omega
  | succ n ih =>
    cases d with
    | zero => simp [buildKmermasksGo, Nat.shiftRight_eq_div_pow]
    | succ d =>
      have hd : d < n := by omega
      show (buildKmermasksGo (mask >>> 2) n).getD d 0 = _
      rw [ih hd, Nat.shiftRight_eq_div_pow, Nat.shiftRight_eq_div_pow,
        Nat.shiftRight_eq_div_pow, Nat.div_div_eq_div_mul, ← pow_add]
      ring_nf

theorem two_pow_sub_one_shiftRight (a b : Nat) :
    (2 ^ a - 1) >>> b = 2 ^ (a - b) - 1 := by
  apply Nat.eq_of_testBit_eq
  intro i
  rw [Nat.testBit_shiftRight, Nat.testBit_two_pow_sub_one, Nat.testBit_two_pow_sub_one]
  simp only [decide_eq_decide]
  omega

theorem build_kmermasks_getD {deep k d : Nat} (h : d < deep) :
    (build_kmermasks deep k).getD d 0 = 2 ^ (2 * k - 2 * (d + 1)) - 1 := by
  unfold build_kmermasks
  rw [buildKmermasksGo_getD h, Nat.shiftLeft_eq, Nat.one_mul,
    Nat.mul_comm k 2, two_pow_sub_one_shiftRight]

theorem multiProd_length {w : List Char} {n : Nat} (h : w ∈ multiProd n) :
    w.length = n := by
  induction n generalizing w with
  | zero => simp [multiProd] at h; simp [h]
  | succ n ih =>
    simp only [multiProd, List.mem_flatMap, List.mem_map] at h
    obtain ⟨v, hv, c, _, hw⟩ := h
    subst hw
    simp [ih hv]

theorem build_subkmer_mem {deep d s : Nat}
    (hs : s ∈ (build_subkmer deep).getD d []) : d < deep ∧ s < 4 ^ (d + 1) := by
  unfold build_subkmer at hs
  rcases Nat.lt_or_ge d deep with h | h
  · rw [List.getD_eq_getElem?_getD, List.getElem?_map, List.getElem?_range h] at hs
    simp only [Option.map_some', Option.getD_some, List.mem_map] at hs
    obtain ⟨w, hw, hsw⟩ := hs
    refine ⟨h, ?_⟩
    rw [← hsw, ← multiProd_length hw]
    exact cocktail.seq2bit_lt w
  · rw [List.getD_eq_getElem?_getD] at hs
    have : (List.map (fun i => List.map cocktail.seq2bit (multiProd (i + 1)))
        (List.range deep))[d]? = none := by
      rw [List.getElem?_eq_none]
      simpa using h
    rw [this] at hs
    simp at hs

theorem xor_mul_pow_add {b i : Nat} (hb : b < 2 ^ i) (a : Nat) :
    2 ^ i * a ^^^ b = 2 ^ i * a + b := by
  apply Nat.eq_of_testBit_eq
  intro j
  rw [Nat.testBit_xor, Nat.testBit_mul_pow_two, Nat.testBit_mul_pow_two_add a hb]
  by_cases h : j < i
  · simp [h, Nat.not_le_of_lt h]
  · have hbj : b < 2 ^ j := lt_of_lt_of_le hb (Nat.pow_le_pow_right (by omega) (by omega))
    simp [h, Nat.not_lt.mp h, Nat.testBit_lt_two_pow hbj]

theorem or_mul_pow_add {b i : Nat} (hb : b < 2 ^ i) (a : Nat) :
    2 ^ i * a ||| b = 2 ^ i * a + b := (Nat.mul_add_lt_is_or hb a).symm

end tables

/-- Fallible bit lookup. `bv::BitVec::get` panics when the index reaches the
length; the embedding returns `none` there, and C9 shows the branch is
unreachable for well-sized stores. -/
def bvGet (v : List Bool) (i : Nat) : Option Bool := v[i]?

namespace graphkmer

/-- Embeds `Graph` of src/graph/kmer.rs:55. -/
structure Graph where
  solidity : List Bool
  kmermasks : List Nat
  subkmer : List (List Nat)
  max_deep : Nat
  k : Nat

/-- Embeds `Graph::new` of src/graph/kmer.rs:64. -/
def Graph.new (solidity : List Bool) (k max_deep : Nat) : Graph :=
  ⟨solidity, tables.build_kmermasks max_deep k, tables.build_subkmer max_deep,
    max_deep, k⟩

/-- Embeds `Graph::is_solid` of src/graph/kmer.rs:74: bit lookup at
`remove_first_bit(cannonical(kmer, k))`. -/
def Graph.is_solid (g : Graph) (kmer : Nat) : Bool :=
  (bvGet g.solidity
    (cocktail.remove_first_bit g.k (cocktail.cannonical kmer g.k))).getD false

/-- Embeds the body of the `for deep` iteration of `Graph::successors`
(src/graph/kmer.rs:81-95): candidates `prefix ^ suffix` that are neither the
k-mer nor map to it under revcomp, and are solid. -/
def Graph.succAt (g : Graph) (kmer deep : Nat) : List Nat :=
  let pfx := (kmer &&& g.kmermasks.getD deep 0) <<< (2 * (deep + 1))
  (g.subkmer.getD deep []).filterMap (fun sfx =>
    let next_kmer := pfx ^^^ sfx
    if next_kmer = kmer ∨ cocktail.revcomp next_kmer g.k = kmer then none
    else if g.is_solid next_kmer then some next_kmer else none)

/-- Embeds `Graph::successors` of src/graph/kmer.rs:80: the `for deep in
0..max_deep` loop returns at the first depth with a non-empty candidate
list, paired with `deep + 1`, and `None` when every depth is empty. -/
def Graph.successors (g : Graph) (kmer : Nat) : Option (List Nat × Nat) :=
  (List.range g.max_deep).findSome? (fun deep =>
    let l := g.succAt kmer deep
    if l.isEmpty then none else some (l, deep + 1))

/-- Embeds the body of the `for deep` iteration of `Graph::predecessors`
(src/graph/kmer.rs:106-123). -/
def Graph.predAt (g : Graph) (kmer deep : Nat) : List Nat :=
  let sfx := kmer >>> (2 * (deep + 1))
  (g.subkmer.getD deep []).filterMap (fun p =>
    let next_kmer := (p <<< (2 * (g.k - (deep + 1)))) ^^^ sfx
    if next_kmer = kmer ∨ cocktail.revcomp next_kmer g.k = kmer then none
    else if g.is_solid next_kmer then some next_kmer else none)

/-- Embeds `Graph::predecessors` of src/graph/kmer.rs:105, with the same
first-non-empty-depth loop shape as `successors`. -/
def Graph.predecessors (g : Graph) (kmer : Nat) : Option (List Nat × Nat) :=
  (List.range g.max_deep).findSome? (fun deep =>
    let l := g.predAt kmer deep
    if l.isEmpty then none else some (l, deep + 1))

/-- Embeds `Viewed` of src/graph/kmer.rs:134. -/
structure Viewed where
  bitvec : List Bool
  k : Nat

/-- Embeds `Viewed::new` of src/graph/kmer.rs:140. -/
def Viewed.new (len k : Nat) : Viewed := ⟨List.replicate len false, k⟩

/-- Embeds `Viewed::contains` of src/graph/kmer.rs:147. -/
def Viewed.contains (v : Viewed) (kmer : Nat) : Bool :=
  (bvGet v.bitvec
    (cocktail.remove_first_bit v.k (cocktail.cannonical kmer v.k))).getD false

/-- Embeds `Viewed::insert` of src/graph/kmer.rs:153. -/
def Viewed.insert (v : Viewed) (kmer : Nat) : Viewed :=
  ⟨v.bitvec.set (cocktail.remove_first_bit v.k (cocktail.cannonical kmer v.k)) true,
    v.k⟩

end graphkmer

namespace utilskmer

/-- Embeds `Kmer::is_solid` of src/utils.rs:72, identical to `Graph::is_solid`
of src/graph.rs:73; the older oracle variant shares the `Graph` record
shape. -/
def is_solid (g : graphkmer.Graph) (kmer : Nat) : Bool :=
  (bvGet g.solidity
    (cocktail.remove_first_bit g.k (cocktail.cannonical kmer g.k))).getD false

/-- Embeds the depth body of `Kmer::successors` of src/utils.rs:79-94 (same
text as `Graph::successors` of src/graph.rs:80-95): no candidate is excluded,
only solidity is tested. -/
def succAt (g : graphkmer.Graph) (kmer deep : Nat) : List Nat :=
  let pfx := (kmer &&& g.kmermasks.getD deep 0) <<< (2 * (deep + 1))
  (g.subkmer.getD deep []).filterMap (fun sfx =>
    let next_kmer := pfx ^^^ sfx
    if is_solid g next_kmer then some next_kmer else none)

/-- Embeds `Kmer::successors` of src/utils.rs:78 and `Graph::successors` of
src/graph.rs:79: first depth with a non-empty candidate list. -/
def successors (g : graphkmer.Graph) (kmer : Nat) : Option (List Nat × Nat) :=
  (List.range g.max_deep).findSome? (fun deep =>
    let l := succAt g kmer deep
    if l.isEmpty then none else some (l, deep + 1))

/-- Embeds the depth body of `Kmer::predecessors` of src/utils.rs:100-117
(same text as src/graph.rs:101-123): only `next_kmer == kmer` is skipped. -/
def predAt (g : graphkmer.Graph) (kmer deep : Nat) : List Nat :=
  let sfx := kmer >>> (2 * (deep + 1))
  (g.subkmer.getD deep []).filterMap (fun p =>
    let next_kmer := (p <<< (2 * (g.k - (deep + 1)))) ^^^ sfx
    if next_kmer = kmer then none
    else if is_solid g next_kmer then some next_kmer else none)

/-- Embeds `Kmer::predecessors` of src/utils.rs:99 and `Graph::predecessors`
of src/graph.rs:100. -/
def predecessors (g : graphkmer.Graph) (kmer : Nat) : Option (List Nat × Nat) :=
  (List.range g.max_deep).findSome? (fun deep =>
    let l := predAt g kmer deep
    if l.isEmpty then none else some (l, deep + 1))

end utilskmer

theorem four_pow_eq (n : Nat) : (4 : Nat) ^ n = 2 ^ (2 * n) := by
  rw [show (4 : Nat) = 2 ^ 2 from rfl, ← pow_mul]

namespace graphkmer

theorem findSome?_some {α β : Type} {f : α → Option β} {l : List α} {b : β}
    (h : l.findSome? f = some b) : ∃ a ∈ l, f a = some b := by
  induction l with
  | nil => simp [List.findSome?] at h
  | cons x xs ih =>
    rw [List.findSome?_cons] at h
    cases hfx : f x with
    | some v =>
      rw [hfx] at h
      simp only [] at h
      exact ⟨x, List.mem_cons_self .., by rw [hfx, h]⟩
    | none =>
      rw [hfx] at h
      simp only [] at h
      obtain ⟨a, ha, hfa⟩ := ih h
      exact ⟨a, List.mem_cons_of_mem _ ha, hfa⟩

theorem successors_some {g : Graph} {kmer : Nat} {l : List Nat} {d : Nat}
    (h : g.successors kmer = some (l, d)) :
    ∃ dp, dp < g.max_deep ∧ l = g.succAt kmer dp ∧ d = dp + 1 ∧ l ≠ [] := by
  obtain ⟨dp, hdp, hf⟩ := findSome?_some h
  rw [List.mem_range] at hdp
  by_cases he : (g.succAt kmer dp).isEmpty
  · simp only [he, if_pos] at hf
    cases hf
  · simp only [he, if_neg, Bool.false_eq_true, not_false_eq_true] at hf
    injection hf with hpair
    injection hpair with h1 h2
    refine ⟨dp, hdp, h1.symm, h2.symm, ?_⟩
    intro hnil
    rw [hnil] at h1
    rw [h1] at he
    exact he rfl

theorem predecessors_some {g : Graph} {kmer : Nat} {l : List Nat} {d : Nat}
    (h : g.predecessors kmer = some (l, d)) :
    ∃ dp, dp < g.max_deep ∧ l = g.predAt kmer dp ∧ d = dp + 1 ∧ l ≠ [] := by
  obtain ⟨dp, hdp, hf⟩ := findSome?_some h
  rw [List.mem_range] at hdp
  by_cases he : (g.predAt kmer dp).isEmpty
  · simp only [he, if_pos] at hf
    cases hf
  · simp only [he, if_neg, Bool.false_eq_true, not_false_eq_true] at hf
    injection hf with hpair
    injection hpair with h1 h2
    refine ⟨dp, hdp, h1.symm, h2.symm, ?_⟩
    intro hnil
    rw [hnil] at h1
    rw [h1] at he
    exact he rfl

theorem mem_succAt {g : Graph} {kmer deep n : Nat} (h : n ∈ g.succAt kmer deep) :
    ∃ s ∈ g.subkmer.getD deep [],
      n = ((kmer &&& g.kmermasks.getD deep 0) <<< (2 * (deep + 1))) ^^^ s ∧
      n ≠ kmer ∧ cocktail.revcomp n g.k ≠ kmer ∧ g.is_solid n = true := by
  simp only [Graph.succAt, List.mem_filterMap] at h
  obtain ⟨s, hs, hf⟩ := h
  refine ⟨s, hs, ?_⟩
  split at hf
  · cases hf
  · rename_i h1
    split at hf
    · rename_i h2
      push_neg at h1
      cases hf
      exact ⟨rfl, h1.1, h1.2, h2⟩
    · cases hf

theorem mem_predAt {g : Graph} {kmer deep n : Nat} (h : n ∈ g.predAt kmer deep) :
    ∃ p ∈ g.subkmer.getD deep [],
      n = (p <<< (2 * (g.k - (deep + 1)))) ^^^ (kmer >>> (2 * (deep + 1))) ∧
      n ≠ kmer ∧ cocktail.revcomp n g.k ≠ kmer ∧ g.is_solid n = true := by
  simp only [Graph.predAt, List.mem_filterMap] at h
  obtain ⟨p, hp, hf⟩ := h
  refine ⟨p, hp, ?_⟩
  split at hf
  · cases hf
  · rename_i h1
    split at hf
    · rename_i h2
      push_neg at h1
      cases hf
      exact ⟨rfl, h1.1, h1.2, h2⟩
    · cases hf

end graphkmer

theorem succ_pfx_eq {k maxd deep kmer : Nat} (hd : deep < maxd) :
    (kmer &&& (tables.build_kmermasks maxd k).getD deep 0) <<< (2 * (deep + 1)) =
      2 ^ (2 * (deep + 1)) * (kmer % 2 ^ (2 * k - 2 * (deep + 1))) := by
  rw [tables.build_kmermasks_getD hd, Nat.and_pow_two_sub_one_eq_mod,
    Nat.shiftLeft_eq, Nat.mul_comm]

theorem succ_cand_eq {k maxd deep kmer s : Nat} (hd : deep < maxd)
    (hs : s < 4 ^ (deep + 1)) :
    ((kmer &&& (tables.build_kmermasks maxd k).getD deep 0) <<< (2 * (deep + 1))) ^^^ s =
      2 ^ (2 * (deep + 1)) * (kmer % 2 ^ (2 * k - 2 * (deep + 1))) + s := by
  rw [succ_pfx_eq hd, tables.xor_mul_pow_add (by rw [← four_pow_eq]; exact hs)]

theorem succ_cand_lt {k maxd deep kmer s : Nat} (hd : deep < maxd)
    (hdk : deep + 1 ≤ k) (hs : s < 4 ^ (deep + 1)) :
    ((kmer &&& (tables.build_kmermasks maxd k).getD deep 0) <<< (2 * (deep + 1))) ^^^ s <
      4 ^ k := by
  rw [succ_cand_eq hd hs, four_pow_eq]
  have hm : kmer % 2 ^ (2 * k - 2 * (deep + 1)) < 2 ^ (2 * k - 2 * (deep + 1)) :=
    Nat.mod_lt _ (Nat.pos_pow_of_pos _ (by omega))
  have hs2 : s < 2 ^ (2 * (deep + 1)) := by rw [← four_pow_eq]; exact hs
  have hsplit : 2 ^ (2 * (deep + 1)) * 2 ^ (2 * k - 2 * (deep + 1)) = 2 ^ (2 * k) := by
    rw [← pow_add]
    congr 1
    omega
  calc 2 ^ (2 * (deep + 1)) * (kmer % 2 ^ (2 * k - 2 * (deep + 1))) + s
      < 2 ^ (2 * (deep + 1)) * (kmer % 2 ^ (2 * k - 2 * (deep + 1)) + 1) := by
        rw [Nat.mul_succ]
        exact Nat.add_lt_add_left hs2 _
    _ ≤ 2 ^ (2 * (deep + 1)) * 2 ^ (2 * k - 2 * (deep + 1)) :=
        Nat.mul_le_mul_left _ (by omega)
    _ = 2 ^ (2 * k) := hsplit

theorem pred_cand_eq {k deep kmer p : Nat} (hdk : deep + 1 ≤ k)
    (hx : kmer < 4 ^ k) :
    (p <<< (2 * (k - (deep + 1)))) ^^^ (kmer >>> (2 * (deep + 1))) =
      2 ^ (2 * (k - (deep + 1))) * p + kmer / 2 ^ (2 * (deep + 1)) := by
  have hdiv : kmer / 2 ^ (2 * (deep + 1)) < 2 ^ (2 * (k - (deep + 1))) := by
    rw [Nat.div_lt_iff_lt_mul (Nat.pos_pow_of_pos _ (by omega)), ← pow_add]
    rw [four_pow_eq] at hx
    calc kmer < 2 ^ (2 * k) := hx
    _ ≤ 2 ^ (2 * (k - (deep + 1)) + 2 * (deep + 1)) := by
        apply Nat.pow_le_pow_right (by omega)
        omega
  rw [Nat.shiftLeft_eq, Nat.shiftRight_eq_div_pow, Nat.mul_comm p,
    tables.xor_mul_pow_add hdiv]

theorem pred_cand_lt {k deep kmer p : Nat} (hdk : deep + 1 ≤ k)
    (hx : kmer < 4 ^ k) (hp : p < 4 ^ (deep + 1)) :
    (p <<< (2 * (k - (deep + 1)))) ^^^ (kmer >>> (2 * (deep + 1))) < 4 ^ k := by
  rw [pred_cand_eq hdk hx, four_pow_eq]
  have hdiv : kmer / 2 ^ (2 * (deep + 1)) < 2 ^ (2 * (k - (deep + 1))) := by
    rw [Nat.div_lt_iff_lt_mul (Nat.pos_pow_of_pos _ (by omega)), ← pow_add]
    rw [four_pow_eq] at hx
    calc kmer < 2 ^ (2 * k) := hx
    _ ≤ 2 ^ (2 * (k - (deep + 1)) + 2 * (deep + 1)) := by
        apply Nat.pow_le_pow_right (by omega)
        omega
  have hp2 : p < 2 ^ (2 * (deep + 1)) := by rw [← four_pow_eq]; exact hp
  have hsplit : 2 ^ (2 * (k - (deep + 1))) * 2 ^ (2 * (deep + 1)) = 2 ^ (2 * k) := by
    rw [← pow_add]
    congr 1
    omega
  calc 2 ^ (2 * (k - (deep + 1))) * p + kmer / 2 ^ (2 * (deep + 1))
      < 2 ^ (2 * (k - (deep + 1))) * (p + 1) := by
        rw [Nat.mul_succ]
        exact Nat.add_lt_add_left hdiv _
    _ ≤ 2 ^ (2 * (k - (deep + 1))) * 2 ^ (2 * (deep + 1)) :=
        Nat.mul_le_mul_left _ (by omega)
    _ = 2 ^ (2 * k) := hsplit

namespace graphkmer

theorem mem_succAt_new {sol : List Bool} {k maxd kmer deep n : Nat}
    (hdk : deep + 1 ≤ k) (h : n ∈ (Graph.new sol k maxd).succAt kmer deep) :
    deep < maxd ∧ n < 4 ^ k ∧ n ≠ kmer ∧ cocktail.revcomp n k ≠ kmer ∧
    (Graph.new sol k maxd).is_solid n = true ∧
    ∃ s < 4 ^ (deep + 1),
      n = 2 ^ (2 * (deep + 1)) * (kmer % 2 ^ (2 * k - 2 * (deep + 1))) + s := by
  obtain ⟨s, hs, hn, hne, hrc, hsol⟩ := mem_succAt h
  obtain ⟨hdmax, hslt⟩ := tables.build_subkmer_mem hs
  have hlt : n < 4 ^ k := by
    rw [hn]
    exact succ_cand_lt hdmax hdk hslt
  have heq : n = 2 ^ (2 * (deep + 1)) * (kmer % 2 ^ (2 * k - 2 * (deep + 1))) + s := by
    rw [hn]
    exact succ_cand_eq hdmax hslt
  exact ⟨hdmax, hlt, hne, hrc, hsol, s, hslt, heq⟩

theorem mem_predAt_new {sol : List Bool} {k maxd kmer deep n : Nat}
    (hdk : deep + 1 ≤ k) (hx : kmer < 4 ^ k)
    (h : n ∈ (Graph.new sol k maxd).predAt kmer deep) :
    deep < maxd ∧ n < 4 ^ k ∧ n ≠ kmer ∧ cocktail.revcomp n k ≠ kmer ∧
    (Graph.new sol k maxd).is_solid n = true ∧
    ∃ p < 4 ^ (deep + 1),
      n = 2 ^ (2 * (k - (deep + 1))) * p + kmer / 2 ^ (2 * (deep + 1)) := by
  obtain ⟨p, hp, hn, hne, hrc, hsol⟩ := mem_predAt h
  obtain ⟨hdmax, hplt⟩ := tables.build_subkmer_mem hp
  have hlt : n < 4 ^ k := by
    rw [hn]
    exact pred_cand_lt hdk hx hplt
  have heq : n = 2 ^ (2 * (k - (deep + 1))) * p + kmer / 2 ^ (2 * (deep + 1)) := by
    rw [hn]
    exact pred_cand_eq hdk hx
  exact ⟨hdmax, hlt, hne, hrc, hsol, p, hplt, heq⟩

end graphkmer

theorem div_lt_pow_sub {k deep kmer : Nat} (hdk : deep + 1 ≤ k)
    (hx : kmer < 4 ^ k) :
    kmer / 2 ^ (2 * (deep + 1)) < 2 ^ (2 * (k - (deep + 1))) := by
  rw [Nat.div_lt_iff_lt_mul (Nat.pos_pow_of_pos _ (by omega)), ← pow_add]
  rw [four_pow_eq] at hx
  calc kmer < 2 ^ (2 * k) := hx
  _ ≤ 2 ^ (2 * (k - (deep + 1)) + 2 * (deep + 1)) := by
      apply Nat.pow_le_pow_right (by omega)
      omega

/-- Fixture: a k = 3 solidity store in which exactly the canonical k-mer AAA
(index 0) is solid. -/
def storeAAA : List Bool := true :: List.replicate 31 false

/-- Fixture: a k = 3 solidity store in which exactly the canonical k-mer AAC
(index 1) is solid. -/
def storeAAC : List Bool := false :: true :: List.replicate 30 false

/-- C10: in `successors` the shifted prefix has its low `2(d+1)` bits zero and
every `subkmer[d]` entry lives in those low bits, so xor coincides with or and
the candidate is a well-formed k-mer; in `predecessors` the shifted prefixes
and the suffix `x >> 2(d+1)` are disjoint likewise. -/
theorem c10_theorem (k maxd deep x : Nat) (hk : 1 ≤ k) (hmd : maxd ≤ k - 1)
    (hd : deep < maxd) (hx : x < 4 ^ k) :
    ((x &&& (tables.build_kmermasks maxd k).getD deep 0) <<< (2 * (deep + 1))) %
        2 ^ (2 * (deep + 1)) = 0 ∧
    (∀ s ∈ (tables.build_subkmer maxd).getD deep [],
      s < 2 ^ (2 * (deep + 1)) ∧
      ((x &&& (tables.build_kmermasks maxd k).getD deep 0) <<< (2 * (deep + 1))) ^^^ s =
        ((x &&& (tables.build_kmermasks maxd k).getD deep 0) <<< (2 * (deep + 1))) ||| s ∧
      ((x &&& (tables.build_kmermasks maxd k).getD deep 0) <<< (2 * (deep + 1))) ^^^ s <
        4 ^ k) ∧
    (∀ p ∈ (tables.build_subkmer maxd).getD deep [],
      (p <<< (2 * (k - (deep + 1)))) ^^^ (x >>> (2 * (deep + 1))) =
        (p <<< (2 * (k - (deep + 1)))) ||| (x >>> (2 * (deep + 1))) ∧
      (p <<< (2 * (k - (deep + 1)))) ^^^ (x >>> (2 * (deep + 1))) < 4 ^ k) := by
  have hdk : deep + 1 ≤ k := by omega
  refine ⟨?_, ?_, ?_⟩
  · rw [succ_pfx_eq hd]
    exact Nat.mul_mod_right _ _
  · intro s hs
    obtain ⟨-, hslt⟩ := tables.build_subkmer_mem hs
    have hs2 : s < 2 ^ (2 * (deep + 1)) := by rw [← four_pow_eq]; exact hslt
    refine ⟨hs2, ?_, succ_cand_lt hd hdk hslt⟩
    rw [succ_pfx_eq hd, tables.xor_mul_pow_add hs2, tables.or_mul_pow_add hs2]
  · intro p hp
    obtain ⟨-, hplt⟩ := tables.build_subkmer_mem hp
    have hdiv := div_lt_pow_sub hdk hx
    refine ⟨?_, pred_cand_lt hdk hx hplt⟩
    rw [Nat.shiftLeft_eq, Nat.shiftRight_eq_div_pow, Nat.mul_comm p,
      tables.xor_mul_pow_add hdiv, tables.or_mul_pow_add hdiv]

/-- C10 witness at k = 3, max_deep = 2, depth 1, x = 5. -/
theorem c10_witness :
    1 ≤ 3 ∧ 2 ≤ 3 - 1 ∧ 1 < 2 ∧ (5 : Nat) < 4 ^ 3 ∧
    ((5 &&& (tables.build_kmermasks 2 3).getD 1 0) <<< (2 * (1 + 1))) %
      2 ^ (2 * (1 + 1)) = 0 :=
  ⟨by decide, by decide, by decide, by decide,
    (c10_theorem 3 2 1 5 (by decide) (by decide) (by decide) (by decide)).1⟩

/-- C3 (amended): the src/graph/kmer.rs oracle excludes both the k-mer and its
reverse complement from every returned candidate list, at every depth. (The
older src/graph.rs and src/utils.rs oracle variant does not: see the
counterexample.) -/
theorem c3_theorem (sol : List Bool) (k maxd x : Nat) (hk : 1 ≤ k)
    (hmd : maxd ≤ k - 1) (hx : x < 4 ^ k) :
    (∀ l d n, (graphkmer.Graph.new sol k maxd).successors x = some (l, d) →
      n ∈ l → n ≠ x ∧ n ≠ cocktail.revcomp x k) ∧
    (∀ l d n, (graphkmer.Graph.new sol k maxd).predecessors x = some (l, d) →
      n ∈ l → n ≠ x ∧ n ≠ cocktail.revcomp x k) := by
  constructor
  · intro l d n hsome hmem
    obtain ⟨dp, hdp, hl, -, -⟩ := graphkmer.successors_some hsome
    rw [hl] at hmem
    have hdk : dp + 1 ≤ k := by
      have : (graphkmer.Graph.new sol k maxd).max_deep = maxd := rfl
      rw [this] at hdp
      omega
    obtain ⟨-, hlt, hne, hrc, -, -⟩ := graphkmer.mem_succAt_new hdk hmem
    refine ⟨hne, ?_⟩
    intro heq
    apply hrc
    rw [heq, cocktail.revcomp_revcomp hx]
  · intro l d n hsome hmem
    obtain ⟨dp, hdp, hl, -, -⟩ := graphkmer.predecessors_some hsome
    rw [hl] at hmem
    have hdk : dp + 1 ≤ k := by
      have : (graphkmer.Graph.new sol k maxd).max_deep = maxd := rfl
      rw [this] at hdp
      omega
    obtain ⟨-, hlt, hne, hrc, -, -⟩ := graphkmer.mem_predAt_new hdk hx hmem
    refine ⟨hne, ?_⟩
    intro heq
    apply hrc
    rw [heq, cocktail.revcomp_revcomp hx]

/-- C3 counterexample: in the src/graph.rs / src/utils.rs oracle variant the
claim fails: with only AAA solid at k = 3, `successors(AAA)` returns AAA
itself (the well-formed input x = 0 appears in its own candidate list). -/
theorem c3_counterexample :
    (0 : Nat) < 4 ^ 3 ∧
    0 ∈ ((utilskmer.successors (graphkmer.Graph.new storeAAA 3 1) 0).getD
      ([], 0)).1 := by decide

/-- C3 witness at k = 3, max_deep = 1, x = 1 (AAC). -/
theorem c3_witness :
    1 ≤ 3 ∧ 1 ≤ 3 - 1 ∧ (1 : Nat) < 4 ^ 3 ∧
    (∀ l d n, (graphkmer.Graph.new storeAAA 3 1).successors 1 = some (l, d) →
      n ∈ l → n ≠ 1 ∧ n ≠ cocktail.revcomp 1 3) :=
  ⟨by decide, by decide, by decide,
    (c3_theorem storeAAA 3 1 1 (by decide) (by decide) (by decide)).1⟩

/-- C8: solidity lookup and `Viewed::contains` are invariant under reverse
complement, because both strands share the canonical index. -/
theorem c8_theorem (g : graphkmer.Graph) (v : graphkmer.Viewed) (x : Nat)
    (hg : x < 4 ^ g.k) (hv : x < 4 ^ v.k) :
    g.is_solid x = g.is_solid (cocktail.revcomp x g.k) ∧
    v.contains x = v.contains (cocktail.revcomp x v.k) := by
  constructor
  · unfold graphkmer.Graph.is_solid
    rw [cocktail.cannonical_revcomp hg]
  · unfold graphkmer.Viewed.contains
    rw [cocktail.cannonical_revcomp hv]

/-- C8 witness at k = 3, x = 5. -/
theorem c8_witness :
    (5 : Nat) < 4 ^ (graphkmer.Graph.new storeAAA 3 1).k ∧
    (graphkmer.Graph.new storeAAA 3 1).is_solid 5 =
      (graphkmer.Graph.new storeAAA 3 1).is_solid
        (cocktail.revcomp 5 (graphkmer.Graph.new storeAAA 3 1).k) :=
  ⟨by decide,
    (c8_theorem (graphkmer.Graph.new storeAAA 3 1) (graphkmer.Viewed.new 32 3) 5
      (by decide) (by decide)).1⟩

/-- C9: for a well-sized store every bit index computed by `is_solid`,
`successors` and `predecessors` is strictly below `kmer_space_size(k)`, so the
fallible bitset lookup always returns a value. -/
theorem c9_theorem (sol : List Bool) (k maxd : Nat) (hk : 1 ≤ k)
    (hlen : sol.length = cocktail.get_kmer_space_size k) :
    (∀ x, cocktail.remove_first_bit k (cocktail.cannonical x k) <
        cocktail.get_kmer_space_size k ∧
      (bvGet sol (cocktail.remove_first_bit k (cocktail.cannonical x k))).isSome =
        true) ∧
    (∀ x l d n, (graphkmer.Graph.new sol k maxd).successors x = some (l, d) →
      n ∈ l →
      (bvGet sol (cocktail.remove_first_bit k (cocktail.cannonical n k))).isSome =
        true) ∧
    (∀ x l d n, (graphkmer.Graph.new sol k maxd).predecessors x = some (l, d) →
      n ∈ l →
      (bvGet sol (cocktail.remove_first_bit k (cocktail.cannonical n k))).isSome =
        true) := by
  have hall : ∀ x, cocktail.remove_first_bit k (cocktail.cannonical x k) <
      cocktail.get_kmer_space_size k ∧
      (bvGet sol (cocktail.remove_first_bit k (cocktail.cannonical x k))).isSome =
        true := by
    intro x
    have hidx := cocktail.remove_first_bit_lt hk (cocktail.cannonical x k)
    refine ⟨hidx, ?_⟩
    unfold bvGet
    rw [List.getElem?_eq_getElem (by omega)]
    rfl
  exact ⟨hall, fun x l d n _ _ => (hall n).2, fun x l d n _ _ => (hall n).2⟩

/-- C9 witness at k = 3 with a 32-bit store. -/
theorem c9_witness :
    1 ≤ 3 ∧ storeAAA.length = cocktail.get_kmer_space_size 3 ∧
    (bvGet storeAAA
      (cocktail.remove_first_bit 3 (cocktail.cannonical 7 3))).isSome = true :=
  ⟨by decide, by decide, ((c9_theorem storeAAA 3 1 (by decide) (by decide)).1 7).2⟩

namespace utils

/-- Embeds `add_kmer_in_tig` of src/utils.rs:216: in front, the first
`not_ovl_len` characters of the k-mer are pushed to the front in reverse;
otherwise the characters from position `k - not_ovl_len` on are pushed to the
back. -/
def add_kmer_in_tig (kmer k not_ovl_len : Nat) (tig : List Char)
    (in_front : Bool) : List Char :=
  if in_front then
    (((cocktail.kmer2seq kmer k).take not_ovl_len).reverse).foldl
      (fun t n => n :: t) tig
  else
    ((cocktail.kmer2seq kmer k).drop (k - not_ovl_len)).foldl
      (fun t n => t ++ [n]) tig

/-- Embeds `normalize_u64_2tuple` of src/utils.rs:272. -/
def normalize_u64_2tuple (a : Nat × Nat) : Nat × Nat :=
  if a.1 > a.2 then (a.2, a.1) else a

/-- Embeds `normalize_usize_2tuple` of src/utils.rs:278. -/
def normalize_usize_2tuple (a : Nat × Nat) : Nat × Nat :=
  if a.1 > a.2 then (a.2, a.1) else a

/-- Embeds `create_link` of src/utils.rs:230: candidate partner tigs are read
from the two endpoint maps, pairs recorded as parallel and the tig itself are
skipped, and the orientation depends on `other_before` and on which map
matched. -/
def create_link (tig : Nat) (e : Nat)
    (first_ends : List (Nat × List Nat)) (second_ends : List (Nat × List Nat))
    (other_before : Bool) (paralelle_tig : List (Nat × Nat)) :
    List (Nat × Char × Nat × Char) :=
  let look := fun (m : List (Nat × List Nat)) =>
    match m.find? (fun kv => kv.1 = e) with
    | some kv => kv.2
    | none => []
  let part1 := (look first_ends).filterMap (fun other_tig =>
    if normalize_usize_2tuple (other_tig, tig) ∈ paralelle_tig then none
    else if other_tig = tig then none
    else if other_before then some (other_tig, '+', tig, '+')
    else some (tig, '-', other_tig, '+'))
  let part2 := (look second_ends).filterMap (fun other_tig =>
    if normalize_usize_2tuple (other_tig, tig) ∈ paralelle_tig then none
    else if other_tig = tig then none
    else if other_before then some (other_tig, '+', tig, '-')
    else some (tig, '+', other_tig, '+'))
  part1 ++ part2

theorem foldl_cons_eq_append (l tig : List Char) :
    l.reverse.foldl (fun t n => n :: t) tig = l ++ tig := by
  induction l generalizing tig with
  | nil => rfl
  | cons c cs ih =>
    rw [List.reverse_cons, List.foldl_append]
    simp [ih]

theorem foldl_append_eq_append (l tig : List Char) :
    l.foldl (fun t n => t ++ [n]) tig = tig ++ l := by
  induction l generalizing tig with
  | nil => simp
  | cons c cs ih => simp [ih]

theorem add_kmer_in_tig_front (kmer k d : Nat) (tig : List Char) :
    add_kmer_in_tig kmer k d tig true = (cocktail.kmer2seq kmer k).take d ++ tig := by
  unfold add_kmer_in_tig
  rw [if_pos rfl, foldl_cons_eq_append]

theorem add_kmer_in_tig_back (kmer k d : Nat) (tig : List Char) :
    add_kmer_in_tig kmer k d tig false =
      tig ++ (cocktail.kmer2seq kmer k).drop (k - d) := by
  unfold add_kmer_in_tig
  rw [if_neg (by simp), foldl_append_eq_append]

end utils

/-- C2 counterexample: at k = 5 with oracle depth 1, a left-extension adds 1
character to the tig, not `k − depth = 4`: the length after
`add_kmer_in_tig` differs from `tig.len + (k − depth)`. -/
theorem c2_counterexample :
    (utils.add_kmer_in_tig 0 5 1 (cocktail.kmer2seq 0 5) true).length ≠
      (cocktail.kmer2seq 0 5).length + (5 - 1) := by decide

/-- C2 (amended): each left-extension step prepends exactly `depth` characters
(the first `depth` characters of the predecessor; its remaining `k − depth`
characters overlap the tig), and each right-extension step appends exactly
`depth` characters (the suffix of the successor from position `k − depth`). -/
theorem c2_theorem (kmer k d : Nat) (tig : List Char) (hd : d ≤ k) :
    utils.add_kmer_in_tig kmer k d tig true =
      (cocktail.kmer2seq kmer k).take d ++ tig ∧
    (utils.add_kmer_in_tig kmer k d tig true).length = d + tig.length ∧
    utils.add_kmer_in_tig kmer k d tig false =
      tig ++ (cocktail.kmer2seq kmer k).drop (k - d) ∧
    (utils.add_kmer_in_tig kmer k d tig false).length = tig.length + d := by
  refine ⟨utils.add_kmer_in_tig_front .., ?_, utils.add_kmer_in_tig_back .., ?_⟩
  · rw [utils.add_kmer_in_tig_front]
    simp [cocktail.kmer2seq_length]
    omega
  · rw [utils.add_kmer_in_tig_back]
    simp [cocktail.kmer2seq_length]
    omega

/-- C2 witness at k = 5, depth 1. -/
theorem c2_witness :
    1 ≤ 5 ∧
    utils.add_kmer_in_tig 9 5 1 (cocktail.kmer2seq 0 5) true =
      (cocktail.kmer2seq 9 5).take 1 ++ cocktail.kmer2seq 0 5 :=
  ⟨by decide, (c2_theorem 9 5 1 (cocktail.kmer2seq 0 5) (by decide)).1⟩

namespace utils

/-- Candidate count of the oracle at a k-mer: the length of the returned list,
0 when the oracle returns `None`; this is the `nb_pred`/`nb_succ` value the
spec's §4.5 records at a loop break point. -/
def predCount (g : graphkmer.Graph) (x : Nat) : Nat :=
  match g.predecessors x with
  | none => 0
  | some (l, _) => l.length

/-- Candidate count of `successors` at a k-mer. -/
def succCount (g : graphkmer.Graph) (x : Nat) : Nat :=
  match g.successors x with
  | none => 0
  | some (l, _) => l.length

/-- Result of one extension loop of `build_tig`: final k-mer, tig, visited
set, and the number of extension steps taken. -/
structure LoopOut where
  current : Nat
  tig : List Char
  visited : graphkmer.Viewed
  steps : Nat

/-- Embeds the predecessor `while let` loop of `build_tig`
(src/utils.rs:159-181): extend while `predecessors` yields a single candidate
and `successors`, when it yields anything, yields a single candidate; each step
prepends via `add_kmer_in_tig`, moves to the candidate and marks it visited.
The unbounded `while` receives explicit fuel. -/
def leftLoopGo (g : graphkmer.Graph) :
    Nat → Nat → List Char → graphkmer.Viewed → LoopOut
  | 0, current, tig, vis => ⟨current, tig, vis, 0⟩
  | fuel + 1, current, tig, vis =>
    match g.predecessors current with
    | none => ⟨current, tig, vis, 0⟩
    | some (pred, ovl_len) =>
      if pred.length ≠ 1 then ⟨current, tig, vis, 0⟩
      else if (match g.successors current with
               | some (succ, _) => succ.length != 1
               | none => false) then ⟨current, tig, vis, 0⟩
      else
        let p := pred.headD 0
        let out := leftLoopGo g fuel p (add_kmer_in_tig p g.k ovl_len tig true)
          (vis.insert p)
        ⟨out.current, out.tig, out.visited, out.steps + 1⟩

/-- Embeds the successor `while let` loop of `build_tig`
(src/utils.rs:186-208), symmetric to the predecessor loop, appending via
`add_kmer_in_tig`. -/
def rightLoopGo (g : graphkmer.Graph) :
    Nat → Nat → List Char → graphkmer.Viewed → LoopOut
  | 0, current, tig, vis => ⟨current, tig, vis, 0⟩
  | fuel + 1, current, tig, vis =>
    match g.successors current with
    | none => ⟨current, tig, vis, 0⟩
    | some (succ, ovl_len) =>
      if succ.length ≠ 1 then ⟨current, tig, vis, 0⟩
      else if (match g.predecessors current with
               | some (pred, _) => pred.length != 1
               | none => false) then ⟨current, tig, vis, 0⟩
      else
        let s := succ.headD 0
        let out := rightLoopGo g fuel s (add_kmer_in_tig s g.k ovl_len tig false)
          (vis.insert s)
        ⟨out.current, out.tig, out.visited, out.steps + 1⟩

/-- Embeds `build_tig` (src/utils.rs:151-213): seed the tig with
`kmer2seq(kmer, k)`, extend left, remember `begin`, reset to the seed, extend
right, and return the tig text with the canonicalised endpoints.
Modelled from the spec: the `Option` return with the trivial-tig filter of
§4.5 step 6, expected by `write_unitig` (src/graph/unitig.rs:173) but absent
from src/ (src/utils.rs holds an older tuple-returning version): a walk that
extended in neither direction and has `nb_pred < 2` or `nb_succ < 2` yields
`None`; `nb_pred`/`nb_succ` are the oracle candidate counts at the break
points, 0 when the oracle returns `None` (the §9 open question). -/
def build_tig (g : graphkmer.Graph) (fuel kmer : Nat)
    (vis : graphkmer.Viewed) :
    Option (List Char × Nat × Nat) × graphkmer.Viewed :=
  let tig0 := cocktail.kmer2seq kmer g.k
  let L := leftLoopGo g fuel kmer tig0 vis
  let R := rightLoopGo g fuel kmer L.tig L.visited
  let nb_pred := predCount g L.current
  let nb_succ := succCount g R.current
  if L.steps = 0 ∧ R.steps = 0 ∧ (nb_pred < 2 ∨ nb_succ < 2) then
    (none, R.visited)
  else
    (some (R.tig, cocktail.cannonical L.current g.k,
      cocktail.cannonical R.current g.k), R.visited)

end utils

namespace unitig

/-- Embeds `Edge` of src/graph/unitig.rs:31. -/
inductive Edge
  | Kmer
  | Begin
  | End
  | Both
deriving DecidableEq

/-- Embeds `Tig` of src/graph/unitig.rs:45. -/
structure Tig where
  id : Nat
  len : Nat
  circular : Bool
deriving DecidableEq

/-- Embeds `Kmer` of src/graph/unitig.rs:52. -/
structure KmerN where
  id : Nat
deriving DecidableEq

/-- Embeds `Node` of src/graph/unitig.rs:39. -/
inductive Node
  | Tig (t : Tig)
  | Kmer (n : KmerN)
deriving DecidableEq

/-- Embeds `petgraph::graphmap::UnGraphMap<Node, Edge>`: node list plus one
weighted edge per unordered node pair. -/
structure UGraph where
  nodes : List Node
  edges : List (Node × Node × Edge)
deriving DecidableEq

/-- Same-unordered-pair test for edges. -/
def sameEdge (a b : Node) (e : Node × Node × Edge) : Prop :=
  (e.1 = a ∧ e.2.1 = b) ∨ (e.1 = b ∧ e.2.1 = a)

instance (a b : Node) (e : Node × Node × Edge) : Decidable (sameEdge a b e) := by
  unfold sameEdge
  infer_instance

/-- Embeds `GraphMap::add_node`. -/
def UGraph.add_node (g : UGraph) (n : Node) : UGraph :=
  if n ∈ g.nodes then g else ⟨g.nodes ++ [n], g.edges⟩

/-- Embeds `GraphMap::contains_node`. -/
def UGraph.contains_node (g : UGraph) (n : Node) : Prop := n ∈ g.nodes

instance (g : UGraph) (n : Node) : Decidable (g.contains_node n) := by
  unfold UGraph.contains_node
  infer_instance

/-- Embeds `GraphMap::edge_weight`. -/
def UGraph.edge_weight (g : UGraph) (a b : Node) : Option Edge :=
  (g.edges.find? (fun e => decide (sameEdge a b e))).map (fun e => e.2.2)

/-- Embeds `GraphMap::add_edge`: missing endpoints are added as nodes, an
existing edge of the unordered pair has its weight replaced, otherwise the
edge is appended. -/
def UGraph.add_edge (g : UGraph) (a b : Node) (w : Edge) : UGraph :=
  let g1 := (g.add_node a).add_node b
  if g1.edges.any (fun e => decide (sameEdge a b e)) then
    ⟨g1.nodes, g1.edges.map (fun e => if sameEdge a b e then (e.1, e.2.1, w) else e)⟩
  else ⟨g1.nodes, g1.edges ++ [(a, b, w)]⟩

/-- Embeds `GraphMap::neighbors` on an undirected graph. -/
def UGraph.neighbors (g : UGraph) (a : Node) : List Node :=
  g.edges.filterMap (fun e =>
    if e.1 = a then some e.2.1 else if e.2.1 = a then some e.1 else none)

end unitig

namespace unitig

/-- One emitted FASTA record of `write_unitig` (src/graph/unitig.rs:212-221):
id, sequence and the two canonical endpoints; `circular` is the printed
`begin == end` flag. -/
structure URecord where
  id : Nat
  seq : List Char
  begink : Nat
  endk : Nat
  circular : Bool
deriving DecidableEq

/-- Embeds the `entry(..).or_insert_with(Vec::new).push(..)` update of
`ends2tig` (src/graph/unitig.rs:174-177) on an association list. -/
def insertEnds : List ((Nat × Nat) × List Nat) → (Nat × Nat) → Nat →
    List ((Nat × Nat) × List Nat)
  | [], key, v => [(key, [v])]
  | (k0, l) :: rest, key, v =>
    if k0 = key then (k0, l ++ [v]) :: rest else (k0, l) :: insertEnds rest key v

/-- Accumulated state of the `write_unitig` seed loop
(src/graph/unitig.rs:155-227). -/
structure UState where
  tig_counter : Nat
  records : List URecord
  ends2tig : List ((Nat × Nat) × List Nat)
  ext_nodes : List Node
  tig_nodes : List Node
  graph : UGraph
  visited : graphkmer.Viewed

/-- Embeds one iteration of the `for kmer in 0..get_kmer_space_size(k)` loop
of `write_unitig` (src/graph/unitig.rs:163-227): skip non-solid and visited
seeds, mark the seed visited, build the tig, and on `Some` record the FASTA
record, the `ends2tig` entry, the `Tig` and endpoint `Kmer` nodes, and the
`Begin`/`End` (or promoted `Both`) edges. -/
def write_unitig_step (g : graphkmer.Graph) (fuel : Nat) (st : UState)
    (kmer : Nat) : UState :=
  if ¬ g.is_solid kmer then st
  else if st.visited.contains kmer then st
  else
    let vis1 := st.visited.insert kmer
    match utils.build_tig g fuel kmer vis1 with
    | (none, vis2) =>
      ⟨st.tig_counter, st.records, st.ends2tig, st.ext_nodes, st.tig_nodes,
        st.graph, vis2⟩
    | (some (tig, beginv, endv), vis2) =>
      let node_tig := Node.Tig ⟨st.tig_counter, tig.length, beginv == endv⟩
      let node_begin := Node.Kmer ⟨beginv⟩
      let node_end := Node.Kmer ⟨endv⟩
      let g1 := st.graph.add_node node_tig
      let g2 := g1.add_node node_begin
      let g3 := g2.add_node node_end
      let g4 := match g3.edge_weight node_tig node_begin with
        | some e =>
          if e = Edge.Begin then g3.add_edge node_tig node_begin Edge.Both else g3
        | none => g3.add_edge node_tig node_begin Edge.Begin
      let g5 := match g4.edge_weight node_tig node_end with
        | some e =>
          if e = Edge.End then g4.add_edge node_tig node_end Edge.End else g4
        | none => g4.add_edge node_tig node_end Edge.End
      ⟨st.tig_counter + 1,
        st.records ++ [⟨st.tig_counter, tig, beginv, endv, beginv == endv⟩],
        insertEnds st.ends2tig (utils.normalize_u64_2tuple (beginv, endv))
          st.tig_counter,
        st.ext_nodes ++ [node_begin, node_end],
        st.tig_nodes ++ [node_tig],
        g5, vis2⟩

/-- Embeds `write_unitig` of src/graph/unitig.rs:142: fold the per-seed step
over the canonical k-mer space, starting from empty state and a fresh
`Viewed` of length `get_kmer_space_size(k)`. -/
def write_unitig (g : graphkmer.Graph) (fuel : Nat) : UState :=
  (List.range (cocktail.get_kmer_space_size g.k)).foldl (write_unitig_step g fuel)
    ⟨0, [], [], [], [], ⟨[], []⟩,
      graphkmer.Viewed.new (cocktail.get_kmer_space_size g.k) g.k⟩

end unitig

/-- All length-k windows of a character sequence: the k-mers spelled by a
unitig. -/
def windows (s : List Char) (k : Nat) : List (List Char) :=
  (List.range (s.length + 1 - k)).map (fun i => (s.drop i).take k)

theorem windows_singleton {s : List Char} {k : Nat} (h : s.length = k) :
    windows s k = [s] := by
  unfold windows
  rw [h, show k + 1 - k = 1 from by omega, show List.range 1 = [0] from rfl,
    List.map_singleton, List.drop_zero, ← h, List.take_length]

theorem windows_cons {t : List Char} {c : Char} {k : Nat} (hk : 1 ≤ k)
    (hlen : k ≤ t.length) :
    windows (c :: t) k = ((c :: t).take k) :: windows t k := by
  unfold windows
  have h1 : (c :: t).length + 1 - k = (t.length + 1 - k) + 1 := by
    simp only [List.length_cons]
    omega
  rw [h1, List.range_succ_eq_map, List.map_cons, List.map_map, List.drop_zero]
  congr 1

theorem windows_append_singleton {t : List Char} {c : Char} {k : Nat}
    (hk : 1 ≤ k) (hlen : k ≤ t.length) :
    windows (t ++ [c]) k =
      windows t k ++ [((t ++ [c]).drop (t.length + 1 - k)).take k] := by
  unfold windows
  have h1 : (t ++ [c]).length + 1 - k = (t.length + 1 - k) + 1 := by
    simp only [List.length_append, List.length_singleton]
    omega
  rw [h1, List.range_succ, List.map_append, List.map_singleton]
  congr 1
  apply List.map_congr_left
  intro i hi
  rw [List.mem_range] at hi
  have hik : i + k ≤ t.length := by omega
  rw [List.drop_append_of_le_length (by omega),
    List.take_append_of_le_length (by simp [List.length_drop]; omega)]

namespace cocktail

theorem kmer2seq_take (x k : Nat) :
    (kmer2seq x (k + 1)).take k = kmer2seq (x / 4) k := by
  rw [kmer2seq]
  exact List.take_left' (kmer2seq_length _ _)

theorem kmer2seq_split {x k : Nat} (h : x < 4 ^ (k + 1)) :
    kmer2seq x (k + 1) = nucChar (x / 4 ^ k) :: kmer2seq (x % 4 ^ k) k := by
  have ha : x / 4 ^ k < 4 := by
    rw [Nat.div_lt_iff_lt_mul (Nat.pos_pow_of_pos _ (by omega))]
    calc x < 4 ^ (k + 1) := h
    _ = 4 * 4 ^ k := by ring
  have hb : x % 4 ^ k < 4 ^ k := Nat.mod_lt _ (Nat.pos_pow_of_pos _ (by omega))
  conv_lhs => rw [show x = x / 4 ^ k * 4 ^ k + x % 4 ^ k from (Nat.div_add_mod' ..).symm]
  exact kmer2seq_high ha hb

theorem kmer2seq_drop_one {x k : Nat} (h : x < 4 ^ (k + 1)) :
    (kmer2seq x (k + 1)).drop 1 = kmer2seq (x % 4 ^ k) k := by
  rw [kmer2seq_split h]
  rfl

theorem kmer2seq_take_one {x k : Nat} (h : x < 4 ^ (k + 1)) :
    (kmer2seq x (k + 1)).take 1 = [nucChar (x / 4 ^ k)] := by
  rw [kmer2seq_split h]
  rfl

theorem kmer2seq_drop_last (x k : Nat) :
    (kmer2seq x (k + 1)).drop k = [nucChar (x % 4)] := by
  rw [kmer2seq]
  exact List.drop_left' (kmer2seq_length _ _)

end cocktail

theorem headD_mem_of_ne_nil {l : List Nat} (h : l ≠ []) : l.headD 0 ∈ l := by
  cases l with
  | nil => exact absurd rfl h
  | cons a t => exact List.mem_cons_self ..

namespace utils

theorem leftLoopGo_steps_zero {g : graphkmer.Graph} {fuel current : Nat}
    {tig : List Char} {vis : graphkmer.Viewed}
    (h : (leftLoopGo g fuel current tig vis).steps = 0) :
    leftLoopGo g fuel current tig vis = ⟨current, tig, vis, 0⟩ := by
  cases fuel with
  | zero => rfl
  | succ fuel =>
    rw [leftLoopGo] at h ⊢
    cases hp : g.predecessors current with
    | none => simp [hp]
    | some pr =>
      obtain ⟨pred, ovl⟩ := pr
      simp only [hp] at h ⊢
      by_cases h1 : pred.length ≠ 1
      · rw [if_pos h1]
      · rw [if_neg h1] at h ⊢
        by_cases h2 : (match g.successors current with
          | some (succ, _) => succ.length != 1
          | none => false) = true
        · rw [if_pos h2]
        · rw [if_neg h2] at h ⊢
          simp at h

theorem rightLoopGo_steps_zero {g : graphkmer.Graph} {fuel current : Nat}
    {tig : List Char} {vis : graphkmer.Viewed}
    (h : (rightLoopGo g fuel current tig vis).steps = 0) :
    rightLoopGo g fuel current tig vis = ⟨current, tig, vis, 0⟩ := by
  cases fuel with
  | zero => rfl
  | succ fuel =>
    rw [rightLoopGo] at h ⊢
    cases hp : g.successors current with
    | none => simp [hp]
    | some pr =>
      obtain ⟨succ, ovl⟩ := pr
      simp only [hp] at h ⊢
      by_cases h1 : succ.length ≠ 1
      · rw [if_pos h1]
      · rw [if_neg h1] at h ⊢
        by_cases h2 : (match g.predecessors current with
          | some (pred, _) => pred.length != 1
          | none => false) = true
        · rw [if_pos h2]
        · rw [if_neg h2] at h ⊢
          simp at h

theorem leftLoopGo_suffix (g : graphkmer.Graph) :
    ∀ (fuel current : Nat) (tig : List Char) (vis : graphkmer.Viewed),
      ∃ u, (leftLoopGo g fuel current tig vis).tig = u ++ tig := by
  intro fuel
  induction fuel with
  | zero => intro current tig vis; exact ⟨[], rfl⟩
  | succ fuel ih =>
    intro current tig vis
    rw [leftLoopGo]
    cases hp : g.predecessors current with
    | none => exact ⟨[], by simp⟩
    | some pr =>
      obtain ⟨pred, ovl⟩ := pr
      simp only []
      by_cases h1 : pred.length ≠ 1
      · rw [if_pos h1]
        exact ⟨[], rfl⟩
      · rw [if_neg h1]
        by_cases h2 : (match g.successors current with
          | some (succ, _) => succ.length != 1
          | none => false) = true
        · rw [if_pos h2]
          exact ⟨[], rfl⟩
        · rw [if_neg h2]
          obtain ⟨u, hu⟩ := ih (pred.headD 0)
            (add_kmer_in_tig (pred.headD 0) g.k ovl tig true) (vis.insert (pred.headD 0))
          refine ⟨u ++ ((cocktail.kmer2seq (pred.headD 0) g.k).take ovl), ?_⟩
          simp only []
          rw [hu, add_kmer_in_tig_front, List.append_assoc]

theorem leftLoopGo_wf {sol : List Bool} {k maxd : Nat} (hk : 1 ≤ k)
    (hmd : maxd ≤ k - 1) :
    ∀ (fuel current : Nat) (tig : List Char) (vis : graphkmer.Viewed),
      current < 4 ^ k →
      (leftLoopGo (graphkmer.Graph.new sol k maxd) fuel current tig vis).current <
        4 ^ k := by
  intro fuel
  induction fuel with
  | zero => intro current tig vis hc; exact hc
  | succ fuel ih =>
    intro current tig vis hc
    rw [leftLoopGo]
    cases hp : (graphkmer.Graph.new sol k maxd).predecessors current with
    | none => simpa using hc
    | some pr =>
      obtain ⟨pred, ovl⟩ := pr
      simp only []
      by_cases h1 : pred.length ≠ 1
      · rw [if_pos h1]
        exact hc
      · rw [if_neg h1]
        by_cases h2 : (match (graphkmer.Graph.new sol k maxd).successors current with
          | some (succ, _) => succ.length != 1
          | none => false) = true
        · rw [if_pos h2]
          exact hc
        · rw [if_neg h2]
          simp only []
          apply ih
          obtain ⟨dp, hdp, hpred, -, hne⟩ := graphkmer.predecessors_some hp
          have hdk : dp + 1 ≤ k := by
            have hmax : (graphkmer.Graph.new sol k maxd).max_deep = maxd := rfl
            rw [hmax] at hdp
            omega
          have hmem : pred.headD 0 ∈ pred := headD_mem_of_ne_nil hne
          have hmem2 : pred.headD 0 ∈
              (graphkmer.Graph.new sol k maxd).predAt current dp := by
            rw [← hpred]
            exact hmem
          exact (graphkmer.mem_predAt_new hdk hc hmem2).2.1

theorem rightLoopGo_wf {sol : List Bool} {k maxd : Nat} (hk : 1 ≤ k)
    (hmd : maxd ≤ k - 1) :
    ∀ (fuel current : Nat) (tig : List Char) (vis : graphkmer.Viewed),
      current < 4 ^ k →
      (rightLoopGo (graphkmer.Graph.new sol k maxd) fuel current tig vis).current <
        4 ^ k := by
  intro fuel
  induction fuel with
  | zero => intro current tig vis hc; exact hc
  | succ fuel ih =>
    intro current tig vis hc
    rw [rightLoopGo]
    cases hp : (graphkmer.Graph.new sol k maxd).successors current with
    | none => simpa using hc
    | some pr =>
      obtain ⟨succ, ovl⟩ := pr
      simp only []
      by_cases h1 : succ.length ≠ 1
      · rw [if_pos h1]
        exact hc
      · rw [if_neg h1]
        by_cases h2 : (match (graphkmer.Graph.new sol k maxd).predecessors current with
          | some (pred, _) => pred.length != 1
          | none => false) = true
        · rw [if_pos h2]
          exact hc
        · rw [if_neg h2]
          simp only []
          apply ih
          obtain ⟨dp, hdp, hsucc, -, hne⟩ := graphkmer.successors_some hp
          have hdk : dp + 1 ≤ k := by
            have hmax : (graphkmer.Graph.new sol k maxd).max_deep = maxd := rfl
            rw [hmax] at hdp
            omega
          have hmem : succ.headD 0 ∈ succ := headD_mem_of_ne_nil hne
          have hmem2 : succ.headD 0 ∈
              (graphkmer.Graph.new sol k maxd).succAt current dp := by
            rw [← hsucc]
            exact hmem
          exact (graphkmer.mem_succAt_new hdk hmem2).2.1

theorem build_tig_some {sol : List Bool} {k maxd : Nat} (hk : 1 ≤ k)
    (hmd : maxd ≤ k - 1) {fuel kmer : Nat} {vis : graphkmer.Viewed}
    {tig : List Char} {b e : Nat} {vis2 : graphkmer.Viewed}
    (hx : kmer < 4 ^ k)
    (h : build_tig (graphkmer.Graph.new sol k maxd) fuel kmer vis =
      (some (tig, b, e), vis2)) :
    ∃ bc ec, bc < 4 ^ k ∧ ec < 4 ^ k ∧
      b = cocktail.cannonical bc k ∧ e = cocktail.cannonical ec k ∧
      tig = (rightLoopGo (graphkmer.Graph.new sol k maxd) fuel kmer
        (leftLoopGo (graphkmer.Graph.new sol k maxd) fuel kmer
          (cocktail.kmer2seq kmer k) vis).tig
        (leftLoopGo (graphkmer.Graph.new sol k maxd) fuel kmer
          (cocktail.kmer2seq kmer k) vis).visited).tig := by
  unfold build_tig at h
  simp only [] at h
  split at h
  · cases h
  · injection h with h1 h2
    injection h1 with h3
    injection h3 with h4 h5
    injection h5 with h6 h7
    exact ⟨_, _, leftLoopGo_wf hk hmd fuel kmer _ vis hx,
      rightLoopGo_wf hk hmd fuel kmer _ _ hx, h6.symm, h7.symm, h4.symm⟩

end utils

namespace graphkmer

theorem mem_succAt_zero {sol : List Bool} {m maxd kmer n : Nat}
    (h : n ∈ (Graph.new sol (m + 1) maxd).succAt kmer 0) :
    n < 4 ^ (m + 1) ∧ (Graph.new sol (m + 1) maxd).is_solid n = true ∧
    ∃ q < 4, n = 4 * (kmer % 4 ^ m) + q ∧ n / 4 = kmer % 4 ^ m ∧ n % 4 = q := by
  obtain ⟨-, hlt, -, -, hsol, s, hslt, heq⟩ :=
    mem_succAt_new (by omega) h
  rw [show (2 : Nat) ^ (2 * (0 + 1)) = 4 from by norm_num,
    show 2 * (m + 1) - 2 * (0 + 1) = 2 * m from by omega, ← four_pow_eq] at heq
  have hs4 : s < 4 := by simpa using hslt
  refine ⟨hlt, hsol, s, hs4, heq, ?_, ?_⟩
  · rw [heq, Nat.mul_add_div (by omega), Nat.div_eq_of_lt hs4]
    omega
  · rw [heq, Nat.mul_add_mod, Nat.mod_eq_of_lt hs4]

theorem mem_predAt_zero {sol : List Bool} {m maxd kmer n : Nat}
    (hx : kmer < 4 ^ (m + 1))
    (h : n ∈ (Graph.new sol (m + 1) maxd).predAt kmer 0) :
    n < 4 ^ (m + 1) ∧ (Graph.new sol (m + 1) maxd).is_solid n = true ∧
    ∃ q < 4, n = q * 4 ^ m + kmer / 4 := by
  obtain ⟨-, hlt, -, -, hsol, p, hplt, heq⟩ :=
    mem_predAt_new (by omega) hx h
  rw [show 2 * (m + 1 - (0 + 1)) = 2 * m from by omega, ← four_pow_eq] at heq
  rw [show (2 : Nat) ^ (2 * (0 + 1)) = 4 from by norm_num] at heq
  have hp4 : p < 4 := by simpa using hplt
  exact ⟨hlt, hsol, p, hp4, by rw [heq, Nat.mul_comm]⟩

theorem successors_some_one {sol : List Bool} {k kmer : Nat}
    {l : List Nat} {d : Nat}
    (h : (Graph.new sol k 1).successors kmer = some (l, d)) :
    d = 1 ∧ l = (Graph.new sol k 1).succAt kmer 0 ∧ l ≠ [] := by
  obtain ⟨dp, hdp, hl, hd, hne⟩ := successors_some h
  have hmax : (Graph.new sol k 1).max_deep = 1 := rfl
  rw [hmax] at hdp
  have hdp0 : dp = 0 := by omega
  subst hdp0
  exact ⟨hd, hl, hne⟩

theorem predecessors_some_one {sol : List Bool} {k kmer : Nat}
    {l : List Nat} {d : Nat}
    (h : (Graph.new sol k 1).predecessors kmer = some (l, d)) :
    d = 1 ∧ l = (Graph.new sol k 1).predAt kmer 0 ∧ l ≠ [] := by
  obtain ⟨dp, hdp, hl, hd, hne⟩ := predecessors_some h
  have hmax : (Graph.new sol k 1).max_deep = 1 := rfl
  rw [hmax] at hdp
  have hdp0 : dp = 0 := by omega
  subst hdp0
  exact ⟨hd, hl, hne⟩

end graphkmer

namespace utils

/-- Invariant of the left extension loop at `max_deep = 1`: the walk head is a
well-formed k-mer spelling the front of the tig, and every window of the tig
spells a solid k-mer. -/
def linv (sol : List Bool) (m current : Nat) (tig : List Char) : Prop :=
  current < 4 ^ (m + 1) ∧
  (∃ rest, tig = cocktail.kmer2seq current (m + 1) ++ rest) ∧
  (∀ w ∈ windows tig (m + 1), ∃ x, x < 4 ^ (m + 1) ∧
    w = cocktail.kmer2seq x (m + 1) ∧
    (graphkmer.Graph.new sol (m + 1) 1).is_solid x = true)

/-- Invariant of the right extension loop at `max_deep = 1`. -/
def rinv (sol : List Bool) (m current : Nat) (tig : List Char) : Prop :=
  current < 4 ^ (m + 1) ∧
  (∃ front, tig = front ++ cocktail.kmer2seq current (m + 1)) ∧
  (∀ w ∈ windows tig (m + 1), ∃ x, x < 4 ^ (m + 1) ∧
    w = cocktail.kmer2seq x (m + 1) ∧
    (graphkmer.Graph.new sol (m + 1) 1).is_solid x = true)

theorem leftLoopGo_linv {sol : List Bool} {m : Nat} :
    ∀ (fuel current : Nat) (tig : List Char) (vis : graphkmer.Viewed),
      linv sol m current tig →
      linv sol m
        (leftLoopGo (graphkmer.Graph.new sol (m + 1) 1) fuel current tig vis).current
        (leftLoopGo (graphkmer.Graph.new sol (m + 1) 1) fuel current tig vis).tig := by
  intro fuel
  induction fuel with
  | zero => intro current tig vis h; exact h
  | succ fuel ih =>
    intro current tig vis h
    obtain ⟨hc, ⟨rest, hdecomp⟩, hwin⟩ := h
    rw [leftLoopGo]
    cases hp : (graphkmer.Graph.new sol (m + 1) 1).predecessors current with
    | none =>
      simp only []
      exact ⟨hc, ⟨rest, hdecomp⟩, hwin⟩
    | some pr =>
      obtain ⟨pred, ovl⟩ := pr
      simp only []
      by_cases h1 : pred.length ≠ 1
      · rw [if_pos h1]
        exact ⟨hc, ⟨rest, hdecomp⟩, hwin⟩
      · rw [if_neg h1]
        by_cases h2 : (match (graphkmer.Graph.new sol (m + 1) 1).successors current with
          | some (succ, _) => succ.length != 1
          | none => false) = true
        · rw [if_pos h2]
          exact ⟨hc, ⟨rest, hdecomp⟩, hwin⟩
        · rw [if_neg h2]
          simp only []
          obtain ⟨hovl, hpredAt, hne⟩ := graphkmer.predecessors_some_one hp
          subst hovl
          have hmem : pred.headD 0 ∈ pred := headD_mem_of_ne_nil hne
          have hmem2 : pred.headD 0 ∈
              (graphkmer.Graph.new sol (m + 1) 1).predAt current 0 := by
            rw [← hpredAt]
            exact hmem
          obtain ⟨hplt, hpsol, q, hq4, hpeq⟩ := graphkmer.mem_predAt_zero hc hmem2
          have hcur4 : current / 4 < 4 ^ m := by
            rw [Nat.div_lt_iff_lt_mul (by omega)]
            calc current < 4 ^ (m + 1) := hc
            _ = 4 ^ m * 4 := by ring
          have hlen : m + 1 ≤ tig.length := by
            rw [hdecomp, List.length_append, cocktail.kmer2seq_length]
            omega
          have htig : add_kmer_in_tig (pred.headD 0)
              (graphkmer.Graph.new sol (m + 1) 1).k 1 tig true =
              cocktail.nucChar q :: tig := by
            rw [show (graphkmer.Graph.new sol (m + 1) 1).k = m + 1 from rfl,
              add_kmer_in_tig_front, hpeq, cocktail.kmer2seq_high hq4 hcur4]
            rfl
          rw [htig]
          apply ih
          refine ⟨hplt, ⟨cocktail.nucChar (current % 4) :: rest, ?_⟩, ?_⟩
          · rw [hpeq, cocktail.kmer2seq_high hq4 hcur4, hdecomp, cocktail.kmer2seq]
            simp
          · rw [windows_cons (by omega) hlen]
            intro w hw
            rcases List.mem_cons.mp hw with hw | hw
            · refine ⟨pred.headD 0, hplt, ?_, hpsol⟩
              rw [hw, List.take_succ_cons, hdecomp,
                List.take_append_of_le_length (by rw [cocktail.kmer2seq_length]; omega),
                cocktail.kmer2seq_take, hpeq, cocktail.kmer2seq_high hq4 hcur4]
            · exact hwin w hw

theorem rightLoopGo_rinv {sol : List Bool} {m : Nat} :
    ∀ (fuel current : Nat) (tig : List Char) (vis : graphkmer.Viewed),
      rinv sol m current tig →
      rinv sol m
        (rightLoopGo (graphkmer.Graph.new sol (m + 1) 1) fuel current tig vis).current
        (rightLoopGo (graphkmer.Graph.new sol (m + 1) 1) fuel current tig vis).tig := by
  intro fuel
  induction fuel with
  | zero => intro current tig vis h; exact h
  | succ fuel ih =>
    intro current tig vis h
    obtain ⟨hc, ⟨front, hdecomp⟩, hwin⟩ := h
    rw [rightLoopGo]
    cases hp : (graphkmer.Graph.new sol (m + 1) 1).successors current with
    | none =>
      simp only []
      exact ⟨hc, ⟨front, hdecomp⟩, hwin⟩
    | some pr =>
      obtain ⟨succ, ovl⟩ := pr
      simp only []
      by_cases h1 : succ.length ≠ 1
      · rw [if_pos h1]
        exact ⟨hc, ⟨front, hdecomp⟩, hwin⟩
      · rw [if_neg h1]
        by_cases h2 : (match (graphkmer.Graph.new sol (m + 1) 1).predecessors current with
          | some (pred, _) => pred.length != 1
          | none => false) = true
        · rw [if_pos h2]
          exact ⟨hc, ⟨front, hdecomp⟩, hwin⟩
        · rw [if_neg h2]
          simp only []
          obtain ⟨hovl, hsuccAt, hne⟩ := graphkmer.successors_some_one hp
          subst hovl
          have hmem : succ.headD 0 ∈ succ := headD_mem_of_ne_nil hne
          have hmem2 : succ.headD 0 ∈
              (graphkmer.Graph.new sol (m + 1) 1).succAt current 0 := by
            rw [← hsuccAt]
            exact hmem
          obtain ⟨hslt, hssol, q, hq4, hseq, hsdiv, hsmod⟩ :=
            graphkmer.mem_succAt_zero hmem2
          have hklen : (cocktail.kmer2seq current (m + 1)).length = m + 1 :=
            cocktail.kmer2seq_length ..
          have hlen : m + 1 ≤ tig.length := by
            rw [hdecomp, List.length_append, hklen]
            omega
          have hsucSeq : cocktail.kmer2seq (succ.headD 0) (m + 1) =
              cocktail.kmer2seq (current % 4 ^ m) m ++ [cocktail.nucChar q] := by
            rw [cocktail.kmer2seq, hsdiv, hsmod]
          have htig : add_kmer_in_tig (succ.headD 0)
              (graphkmer.Graph.new sol (m + 1) 1).k 1 tig false =
              tig ++ [cocktail.nucChar q] := by
            rw [show (graphkmer.Graph.new sol (m + 1) 1).k = m + 1 from rfl,
              add_kmer_in_tig_back,
              show m + 1 - 1 = m from by omega,
              cocktail.kmer2seq_drop_last, hsmod]
          rw [htig]
          apply ih
          refine ⟨hslt, ⟨front ++ [cocktail.nucChar (current / 4 ^ m)], ?_⟩, ?_⟩
          · rw [hsucSeq, hdecomp, cocktail.kmer2seq_split hc]
            simp
          · rw [windows_append_singleton (by omega) hlen]
            intro w hw
            rcases List.mem_append.mp hw with hw | hw
            · exact hwin w hw
            · rw [List.mem_singleton] at hw
              refine ⟨succ.headD 0, hslt, ?_, hssol⟩
              have htlen : tig.length = front.length + (m + 1) := by
                rw [hdecomp, List.length_append, hklen]
              have hidx : tig.length + 1 - (m + 1) = front.length + 1 := by
                omega
              rw [hw, hidx, hdecomp, List.append_assoc, List.drop_append,
                List.drop_append_of_le_length (by rw [hklen]; omega),
                cocktail.kmer2seq_drop_one hc, ← hsucSeq]
              exact List.take_of_length_le (by simp [cocktail.kmer2seq_length])

end utils

theorem foldl_preserve {α β : Type} {P : β → Prop} {Q : α → Prop} {f : β → α → β}
    (hf : ∀ st x, Q x → P st → P (f st x)) :
    ∀ (l : List α) (st : β), (∀ x ∈ l, Q x) → P st → P (l.foldl f st) := by
  intro l
  induction l with
  | nil => intro st _ h; exact h
  | cons a t ih =>
    intro st hq h
    rw [List.foldl_cons]
    exact ih _ (fun x hx => hq x (List.mem_cons_of_mem _ hx))
      (hf st a (hq a (List.mem_cons_self ..)) h)

namespace unitig

theorem write_unitig_step_cases (g : graphkmer.Graph) (fuel : Nat)
    (st : UState) (kmer : Nat) :
    ((write_unitig_step g fuel st kmer).records = st.records ∧
     (write_unitig_step g fuel st kmer).tig_nodes = st.tig_nodes ∧
     (write_unitig_step g fuel st kmer).ext_nodes = st.ext_nodes ∧
     (write_unitig_step g fuel st kmer).tig_counter = st.tig_counter) ∨
    (∃ tig b e vis2, g.is_solid kmer = true ∧
      utils.build_tig g fuel kmer (st.visited.insert kmer) =
        (some (tig, b, e), vis2) ∧
      (write_unitig_step g fuel st kmer).records =
        st.records ++ [⟨st.tig_counter, tig, b, e, b == e⟩] ∧
      (write_unitig_step g fuel st kmer).tig_nodes =
        st.tig_nodes ++ [Node.Tig ⟨st.tig_counter, tig.length, b == e⟩] ∧
      (write_unitig_step g fuel st kmer).ext_nodes =
        st.ext_nodes ++ [Node.Kmer ⟨b⟩, Node.Kmer ⟨e⟩]) := by
  unfold write_unitig_step
  by_cases hsol : g.is_solid kmer = true
  · rw [if_neg (by simp [hsol])]
    by_cases hv : st.visited.contains kmer = true
    · rw [if_pos hv]
      exact Or.inl ⟨rfl, rfl, rfl, rfl⟩
    · rw [if_neg hv]
      rcases hE : utils.build_tig g fuel kmer (st.visited.insert kmer) with ⟨res, vis2⟩
      cases res with
      | none =>
        exact Or.inl (by simp [hE])
      | some trip =>
        obtain ⟨tig, b, e⟩ := trip
        refine Or.inr ⟨tig, b, e, vis2, hsol, rfl, ?_, ?_, ?_⟩ <;> simp [hE]
  · rw [if_pos (by simp [hsol])]
    exact Or.inl ⟨rfl, rfl, rfl, rfl⟩

end unitig

namespace utils

theorem build_tig_windows {sol : List Bool} {m fuel kmer : Nat}
    {vis vis2 : graphkmer.Viewed} {tig : List Char} {b e : Nat}
    (hx : kmer < 4 ^ (m + 1))
    (hsolid : (graphkmer.Graph.new sol (m + 1) 1).is_solid kmer = true)
    (h : build_tig (graphkmer.Graph.new sol (m + 1) 1) fuel kmer vis =
      (some (tig, b, e), vis2)) (hm : 1 ≤ m) :
    ∀ w ∈ windows tig (m + 1), ∃ x, x < 4 ^ (m + 1) ∧
      w = cocktail.kmer2seq x (m + 1) ∧
      (graphkmer.Graph.new sol (m + 1) 1).is_solid x = true := by
  obtain ⟨bc, ec, -, -, -, -, htig⟩ :=
    build_tig_some (k := m + 1) (by omega) (by omega) hx h
  have hwin0 : ∀ w ∈ windows (cocktail.kmer2seq kmer (m + 1)) (m + 1),
      ∃ x, x < 4 ^ (m + 1) ∧ w = cocktail.kmer2seq x (m + 1) ∧
        (graphkmer.Graph.new sol (m + 1) 1).is_solid x = true := by
    rw [windows_singleton (cocktail.kmer2seq_length ..)]
    intro w hw
    rw [List.mem_singleton] at hw
    exact ⟨kmer, hx, hw, hsolid⟩
  have hL := leftLoopGo_linv fuel kmer (cocktail.kmer2seq kmer (m + 1)) vis
    ⟨hx, ⟨[], by simp⟩, hwin0⟩
  obtain ⟨u, hu⟩ := leftLoopGo_suffix (graphkmer.Graph.new sol (m + 1) 1) fuel kmer
    (cocktail.kmer2seq kmer (m + 1)) vis
  have hR := rightLoopGo_rinv fuel kmer
    (leftLoopGo (graphkmer.Graph.new sol (m + 1) 1) fuel kmer
      (cocktail.kmer2seq kmer (m + 1)) vis).tig
    (leftLoopGo (graphkmer.Graph.new sol (m + 1) 1) fuel kmer
      (cocktail.kmer2seq kmer (m + 1)) vis).visited
    ⟨hx, ⟨u, hu⟩, hL.2.2⟩
  rw [htig]
  exact hR.2.2

end utils

theorem space_le_four_pow (k : Nat) :
    cocktail.get_kmer_space_size k ≤ 4 ^ k := by
  unfold cocktail.get_kmer_space_size
  rw [Nat.shiftLeft_eq, Nat.one_mul, four_pow_eq]
  exact Nat.pow_le_pow_right (by omega) (by omega)

/-- C4: every emitted record carries canonical `begin`/`end` values, and the
`circular` flag printed in the FASTA header and stored in the `Tig` node is
exactly `begin == end`; the graph's `Tig` and endpoint `Kmer` nodes mirror the
records. -/
theorem c4_theorem (sol : List Bool) (k maxd fuel : Nat) (hk : 1 ≤ k)
    (hmd : maxd ≤ k - 1) :
    (∀ r ∈ (unitig.write_unitig (graphkmer.Graph.new sol k maxd) fuel).records,
      cocktail.cannonical r.begink k = r.begink ∧
      cocktail.cannonical r.endk k = r.endk ∧
      (r.circular = true ↔ r.begink = r.endk)) ∧
    (unitig.write_unitig (graphkmer.Graph.new sol k maxd) fuel).tig_nodes =
      (unitig.write_unitig (graphkmer.Graph.new sol k maxd) fuel).records.map
        (fun r => unitig.Node.Tig ⟨r.id, r.seq.length, r.circular⟩) ∧
    (unitig.write_unitig (graphkmer.Graph.new sol k maxd) fuel).ext_nodes =
      (unitig.write_unitig (graphkmer.Graph.new sol k maxd) fuel).records.flatMap
        (fun r => [unitig.Node.Kmer ⟨r.begink⟩, unitig.Node.Kmer ⟨r.endk⟩]) := by
  rw [unitig.write_unitig]
  refine foldl_preserve
    (P := fun (st : unitig.UState) =>
      (∀ r ∈ st.records,
        cocktail.cannonical r.begink k = r.begink ∧
        cocktail.cannonical r.endk k = r.endk ∧
        (r.circular = true ↔ r.begink = r.endk)) ∧
      st.tig_nodes = st.records.map
        (fun r => unitig.Node.Tig ⟨r.id, r.seq.length, r.circular⟩) ∧
      st.ext_nodes = st.records.flatMap
        (fun r => [unitig.Node.Kmer ⟨r.begink⟩, unitig.Node.Kmer ⟨r.endk⟩]))
    (Q := fun x => x < 4 ^ k) ?_ _ _ ?_ ?_
  · intro st x hq hp
    rcases unitig.write_unitig_step_cases (graphkmer.Graph.new sol k maxd) fuel st x with
      ⟨h1, h2, h3, -⟩ | ⟨tig, b, e, vis2, hsol, hbt, h1, h2, h3⟩
    · exact ⟨by rw [h1]; exact hp.1, by rw [h2, h1]; exact hp.2.1,
        by rw [h3, h1]; exact hp.2.2⟩
    · obtain ⟨bc, ec, hbc, hec, hb, he, -⟩ := utils.build_tig_some hk hmd hq hbt
      refine ⟨?_, ?_, ?_⟩
      · intro r hr
        rw [h1] at hr
        rcases List.mem_append.mp hr with hr | hr
        · exact hp.1 r hr
        · rw [List.mem_singleton] at hr
          subst hr
          refine ⟨?_, ?_, ?_⟩
          · show cocktail.cannonical b k = b
            rw [hb, cocktail.cannonical_idem hbc]
          · show cocktail.cannonical e k = e
            rw [he, cocktail.cannonical_idem hec]
          · show (b == e) = true ↔ b = e
            exact beq_iff_eq ..
      · rw [h2, h1, List.map_append, hp.2.1]
        rfl
      · rw [h3, h1, List.flatMap_append, hp.2.2]
        rfl
  · intro x hx
    rw [List.mem_range] at hx
    calc x < cocktail.get_kmer_space_size (graphkmer.Graph.new sol k maxd).k := hx
    _ ≤ 4 ^ k := space_le_four_pow k
  · exact ⟨fun r hr => absurd hr (List.not_mem_nil r), rfl, rfl⟩

/-- Fixture: a k = 3 solidity store in which AAC (index 1) and ACC (index 5)
are solid, an adjacent pair forming one linear unitig AACC. -/
def storeChain : List Bool :=
  [false, true, false, false, false, true] ++ List.replicate 26 false

/-- C4 witness at k = 3 on a store producing one unitig. -/
theorem c4_witness :
    1 ≤ 3 ∧ 1 ≤ 3 - 1 ∧
    (unitig.write_unitig (graphkmer.Graph.new storeChain 3 1) 8).tig_nodes =
      (unitig.write_unitig (graphkmer.Graph.new storeChain 3 1) 8).records.map
        (fun r => unitig.Node.Tig ⟨r.id, r.seq.length, r.circular⟩) :=
  ⟨by decide, by decide, (c4_theorem storeChain 3 1 8 (by decide) (by decide)).2.1⟩

/-- C5: a walk that extended in neither direction and has `nb_pred < 2` or
`nb_succ < 2` yields `None` from `build_tig` (its tig is still the bare seed
k-mer) and `write_unitig` records nothing for it; every walk with `Some` is
emitted as a record with the canonical endpoints and `circular = (begin ==
end)`. -/
theorem c5_theorem (g : graphkmer.Graph) (fuel : Nat) (st : unitig.UState)
    (kmer : Nat) (hsolid : g.is_solid kmer = true)
    (hvis : st.visited.contains kmer = false) :
    ∀ L R, L = utils.leftLoopGo g fuel kmer (cocktail.kmer2seq kmer g.k)
        (st.visited.insert kmer) →
      R = utils.rightLoopGo g fuel kmer L.tig L.visited →
      (((utils.build_tig g fuel kmer (st.visited.insert kmer)).1 = none) ↔
        (L.steps = 0 ∧ R.steps = 0 ∧
          (utils.predCount g L.current < 2 ∨ utils.succCount g R.current < 2))) ∧
      (L.steps = 0 ∧ R.steps = 0 → R.tig = cocktail.kmer2seq kmer g.k) ∧
      ((utils.build_tig g fuel kmer (st.visited.insert kmer)).1 = none →
        (unitig.write_unitig_step g fuel st kmer).records = st.records ∧
        (unitig.write_unitig_step g fuel st kmer).tig_nodes = st.tig_nodes ∧
        (unitig.write_unitig_step g fuel st kmer).ext_nodes = st.ext_nodes ∧
        (unitig.write_unitig_step g fuel st kmer).ends2tig = st.ends2tig ∧
        (unitig.write_unitig_step g fuel st kmer).graph = st.graph ∧
        (unitig.write_unitig_step g fuel st kmer).tig_counter = st.tig_counter) ∧
      (∀ tig b e vis2,
        utils.build_tig g fuel kmer (st.visited.insert kmer) =
          (some (tig, b, e), vis2) →
        (unitig.write_unitig_step g fuel st kmer).records =
          st.records ++ [⟨st.tig_counter, tig, b, e, b == e⟩]) := by
  intro L R hL hR
  subst hL
  subst hR
  refine ⟨?_, ?_, ?_, ?_⟩
  · unfold utils.build_tig
    simp only []
    split
    · rename_i hcond
      simpa using hcond
    · rename_i hcond
      simpa using hcond
  · intro ⟨hl0, hr0⟩
    have e1 := utils.leftLoopGo_steps_zero hl0
    have e2 := utils.rightLoopGo_steps_zero hr0
    rw [e2, e1]
  · intro hnone
    unfold unitig.write_unitig_step
    rw [if_neg (by simp [hsolid]), if_neg (by simp [hvis])]
    rcases hE : utils.build_tig g fuel kmer (st.visited.insert kmer) with ⟨res, vis2⟩
    rw [hE] at hnone
    simp only [] at hnone
    subst hnone
    exact ⟨by simp [hE], by simp [hE], by simp [hE], by simp [hE], by simp [hE],
      by simp [hE]⟩
  · intro tig b e vis2 hsome
    unfold unitig.write_unitig_step
    rw [if_neg (by simp [hsolid]), if_neg (by simp [hvis])]
    simp [hsome]

/-- Fixture: the initial extraction state at k = 3. -/
def initState3 : unitig.UState :=
  ⟨0, [], [], [], [], ⟨[], []⟩, graphkmer.Viewed.new 32 3⟩

/-- C5 witness: the isolated solid k-mer AAC at k = 3 is discarded and leaves
no record. -/
theorem c5_witness :
    (graphkmer.Graph.new storeAAC 3 1).is_solid 1 = true ∧
    (unitig.write_unitig_step (graphkmer.Graph.new storeAAC 3 1) 8 initState3
      1).records = initState3.records :=
  ⟨by decide,
    ((c5_theorem (graphkmer.Graph.new storeAAC 3 1) 8 initState3 1 (by decide)
      (by decide)) _ _ rfl rfl).2.2.1 (by decide) |>.1⟩

/-- Canonicalised k-mers of all emitted unitig sequences (the claimed
multiset union of the coverage invariant). -/
def unitigKmersCanon (recs : List unitig.URecord) (k : Nat) : List Nat :=
  recs.flatMap (fun r =>
    (windows r.seq k).map (fun w => cocktail.cannonical (cocktail.seq2bit w) k))

/-- The solid canonical k-mers of a store: canonical fixed points whose
solidity bit is set. -/
def solidCanonList (g : graphkmer.Graph) : List Nat :=
  (List.range (4 ^ g.k)).filter
    (fun x => (cocktail.cannonical x g.k == x) && g.is_solid x)

theorem is_solid_cannonical (g : graphkmer.Graph) {x : Nat} (hx : x < 4 ^ g.k) :
    g.is_solid (cocktail.cannonical x g.k) = g.is_solid x := by
  unfold graphkmer.Graph.is_solid
  rw [cocktail.cannonical_idem hx]

/-- C1 counterexample: at k = 3 with only the isolated k-mer AAC solid, the
trivial-tig rule discards its walk with no neighboring unitig to absorb it:
no unitig is emitted, so the canonicalised unitig k-mers (none) do not equal
the non-empty solid canonical set. -/
theorem c1_counterexample :
    unitigKmersCanon
      (unitig.write_unitig (graphkmer.Graph.new storeAAC 3 1) 8).records 3 = [] ∧
    1 ∈ solidCanonList (graphkmer.Graph.new storeAAC 3 1) := by decide

/-- C1 (amended): with `max_deep = 1` the equality weakens to containment:
every canonicalised k-mer of every emitted unitig sequence is a solid
canonical k-mer. (Equality fails because a walk discarded by the trivial-tig
rule is not always absorbed by a neighbor, and for `max_deep ≥ 2`
gap-crossing writes non-solid k-mers into the sequence by design.) -/
theorem c1_theorem (sol : List Bool) (m fuel : Nat) (hm : 1 ≤ m) :
    ∀ v ∈ unitigKmersCanon
        (unitig.write_unitig (graphkmer.Graph.new sol (m + 1) 1) fuel).records
        (m + 1),
      v ∈ solidCanonList (graphkmer.Graph.new sol (m + 1) 1) := by
  have key : ∀ r ∈ (unitig.write_unitig
        (graphkmer.Graph.new sol (m + 1) 1) fuel).records,
      ∀ w ∈ windows r.seq (m + 1), ∃ x, x < 4 ^ (m + 1) ∧
        w = cocktail.kmer2seq x (m + 1) ∧
        (graphkmer.Graph.new sol (m + 1) 1).is_solid x = true := by
    rw [unitig.write_unitig]
    refine foldl_preserve
      (P := fun (st : unitig.UState) => ∀ r ∈ st.records,
        ∀ w ∈ windows r.seq (m + 1), ∃ x, x < 4 ^ (m + 1) ∧
          w = cocktail.kmer2seq x (m + 1) ∧
          (graphkmer.Graph.new sol (m + 1) 1).is_solid x = true)
      (Q := fun x => x < 4 ^ (m + 1)) ?_ _ _ ?_ ?_
    · intro st x hq hp
      rcases unitig.write_unitig_step_cases (graphkmer.Graph.new sol (m + 1) 1)
        fuel st x with ⟨h1, -, -, -⟩ | ⟨tig, b, e, vis2, hsol, hbt, h1, -, -⟩
      · rw [h1]
        exact hp
      · rw [h1]
        intro r hr
        rcases List.mem_append.mp hr with hr | hr
        · exact hp r hr
        · rw [List.mem_singleton] at hr
          subst hr
          exact utils.build_tig_windows hq hsol hbt hm
    · intro x hx
      rw [List.mem_range] at hx
      have hle := space_le_four_pow (m + 1)
      have hsz : cocktail.get_kmer_space_size ((graphkmer.Graph.new sol (m + 1) 1).k) =
          cocktail.get_kmer_space_size (m + 1) := rfl
      omega
    · intro r hr
      exact absurd hr (List.not_mem_nil r)
  intro v hv
  unfold unitigKmersCanon at hv
  rw [List.mem_flatMap] at hv
  obtain ⟨r, hr, hv⟩ := hv
  rw [List.mem_map] at hv
  obtain ⟨w, hw, hveq⟩ := hv
  obtain ⟨x, hxlt, hwx, hxsol⟩ := key r hr w hw
  have hsb : cocktail.seq2bit w = x := by
    rw [hwx]
    exact cocktail.seq2bit_kmer2seq hxlt
  unfold solidCanonList
  rw [List.mem_filter, List.mem_range]
  constructor
  · rw [← hveq, hsb]
    exact cocktail.cannonical_lt
      (show x < 4 ^ (graphkmer.Graph.new sol (m + 1) 1).k from hxlt)
  · rw [← hveq, hsb, Bool.and_eq_true, beq_iff_eq]
    refine ⟨cocktail.cannonical_idem
      (show x < 4 ^ (graphkmer.Graph.new sol (m + 1) 1).k from hxlt), ?_⟩
    show (graphkmer.Graph.new sol (m + 1) 1).is_solid
      (cocktail.cannonical x ((graphkmer.Graph.new sol (m + 1) 1).k)) = true
    rw [is_solid_cannonical (graphkmer.Graph.new sol (m + 1) 1)
      (show x < 4 ^ (graphkmer.Graph.new sol (m + 1) 1).k from hxlt)]
    exact hxsol

/-- C1 witness at k = 3 on a two-k-mer chain: the emitted unitig AACC has its
canonicalised k-mer AAC inside the solid canonical set. -/
theorem c1_witness :
    1 ≤ 2 ∧
    1 ∈ unitigKmersCanon
      (unitig.write_unitig (graphkmer.Graph.new storeChain (2 + 1) 1) 8).records
      (2 + 1) ∧
    1 ∈ solidCanonList (graphkmer.Graph.new storeChain (2 + 1) 1) :=
  ⟨by decide, by decide, c1_theorem storeChain 2 8 (by decide) 1 (by decide)⟩

namespace unitig

/-- Embeds `build_link` of src/graph/unitig.rs:56: both terminals must be
`Tig` nodes whose edges to the middle nodes carry `Begin`/`End` tags; the sign
table is (Begin,Begin) ↦ (−,+), (Begin,End) ↦ (−,−), (End,Begin) ↦ (+,+),
(End,End) ↦ (+,−). -/
def build_link (s1 t1 s2 t2 : Node) (graph : UGraph) :
    Option (Nat × Char × Nat × Char) :=
  match s1, t2 with
  | Node.Tig first, Node.Tig second =>
    match graph.edge_weight s1 t1, graph.edge_weight s2 t2 with
    | some e1, some e2 =>
      if e1 = Edge.Begin ∧ e2 = Edge.Begin then some (first.id, '-', second.id, '+')
      else if e1 = Edge.Begin ∧ e2 = Edge.End then some (first.id, '-', second.id, '-')
      else if e1 = Edge.End ∧ e2 = Edge.Begin then some (first.id, '+', second.id, '+')
      else if e1 = Edge.End ∧ e2 = Edge.End then some (first.id, '+', second.id, '-')
      else none
    | _, _ => none
  | _, _ => none

/-- Embeds `tig_kmer_tig` of src/graph/unitig.rs:86: `Tig — Kmer — Tig` paths,
skipping the start node, collected into a set. -/
def tig_kmer_tig (graph : UGraph) : Finset (Nat × Char × Nat × Char) :=
  graph.nodes.foldl (fun ret node =>
    match node with
    | Node.Tig _ =>
      (graph.neighbors node).foldl (fun ret nnode =>
        match nnode with
        | Node.Kmer _ =>
          (graph.neighbors nnode).foldl (fun ret nnnode =>
            if nnnode = node then ret
            else match build_link node nnode nnode nnnode graph with
              | some link => insert link ret
              | none => ret) ret
        | _ => ret) ret
    | _ => ret) ∅

/-- Embeds `tig_kmer_kmer_tig` of src/graph/unitig.rs:112:
`Tig — Kmer — Kmer — Tig` paths through one `Kmer` edge, skipping the start
node. -/
def tig_kmer_kmer_tig (graph : UGraph) : Finset (Nat × Char × Nat × Char) :=
  graph.nodes.foldl (fun ret node =>
    match node with
    | Node.Tig _ =>
      (graph.neighbors node).foldl (fun ret nnode =>
        match nnode with
        | Node.Kmer _ =>
          (graph.neighbors nnode).foldl (fun ret nnnode =>
            match nnnode with
            | Node.Kmer _ =>
              (graph.neighbors nnnode).foldl (fun ret nnnnode =>
                if nnnnode = node then ret
                else match build_link node nnode nnnode nnnnode graph with
                  | some link => insert link ret
                  | none => ret) ret
            | _ => ret) ret
        | _ => ret) ret
    | _ => ret) ∅

/-- Every node reachable through the edge list or the node list of the
graph. -/
def nodeSupport (g : UGraph) : List Node :=
  g.nodes ++ g.edges.flatMap (fun e => [e.1, e.2.1])

/-- Tig-id injectivity: two `Tig` nodes of the graph with the same id are the
same node. `write_unitig` guarantees this since ids come from a strictly
increasing counter. -/
def tigIdOk : Node → Node → Prop
  | Node.Tig a, Node.Tig b => a.id = b.id → a = b
  | _, _ => True

instance (n1 n2 : Node) : Decidable (tigIdOk n1 n2) :=
  match n1, n2 with
  | Node.Tig a, Node.Tig b => inferInstanceAs (Decidable (a.id = b.id → a = b))
  | Node.Tig _, Node.Kmer _ => inferInstanceAs (Decidable True)
  | Node.Kmer _, Node.Tig _ => inferInstanceAs (Decidable True)
  | Node.Kmer _, Node.Kmer _ => inferInstanceAs (Decidable True)

def TigIdInj (g : UGraph) : Prop :=
  ∀ n1 ∈ nodeSupport g, ∀ n2 ∈ nodeSupport g, tigIdOk n1 n2

instance (g : UGraph) : Decidable (TigIdInj g) :=
  inferInstanceAs
    (Decidable (∀ n1 ∈ nodeSupport g, ∀ n2 ∈ nodeSupport g, tigIdOk n1 n2))

theorem neighbors_subset_support {g : UGraph} {a n : Node}
    (h : n ∈ g.neighbors a) : n ∈ nodeSupport g := by
  unfold UGraph.neighbors at h
  rw [List.mem_filterMap] at h
  obtain ⟨e, he, hfe⟩ := h
  unfold nodeSupport
  rw [List.mem_append]
  right
  rw [List.mem_flatMap]
  refine ⟨e, he, ?_⟩
  split at hfe
  · injection hfe with h1
    subst h1
    simp
  · split at hfe
    · injection hfe with h1
      subst h1
      simp
    · cases hfe

theorem build_link_some {s1 t1 s2 t2 : Node} {g : UGraph}
    {q : Nat × Char × Nat × Char}
    (h : build_link s1 t1 s2 t2 g = some q) :
    ∃ a b : Tig, s1 = Node.Tig a ∧ t2 = Node.Tig b ∧
      q.1 = a.id ∧ q.2.2.1 = b.id := by
  unfold build_link at h
  cases s1 with
  | Kmer n => cases h
  | Tig a =>
    cases t2 with
    | Kmer n => cases h
    | Tig b =>
      refine ⟨a, b, rfl, rfl, ?_⟩
      cases hw1 : g.edge_weight (Node.Tig a) t1 with
      | none =>
        rw [hw1] at h
        simp at h
      | some e1 =>
        rw [hw1] at h
        cases hw2 : g.edge_weight s2 (Node.Tig b) with
        | none =>
          rw [hw2] at h
          simp at h
        | some e2 =>
          rw [hw2] at h
          simp only [] at h
          split_ifs at h <;> (injection h with h1; subst h1; exact ⟨rfl, rfl⟩)

theorem mem_foldl_insert {α β : Type} [DecidableEq β]
    {f : Finset β → α → Finset β} {P : β → Prop} :
    ∀ (l : List α) (init : Finset β),
      (∀ acc x q, x ∈ l → q ∈ f acc x → q ∈ acc ∨ P q) →
      ∀ q, q ∈ l.foldl f init → q ∈ init ∨ P q := by
  intro l
  induction l with
  | nil =>
    intro init _ q h
    exact Or.inl h
  | cons a t ih =>
    intro init hf q h
    rw [List.foldl_cons] at h
    rcases ih (f init a) (fun acc x q hx hq =>
      hf acc x q (List.mem_cons_of_mem _ hx) hq) q h with h2 | h2
    · exact hf init a q (List.mem_cons_self ..) h2
    · exact Or.inr h2

theorem inner3_no_self {g : UGraph} (hinj : TigIdInj g) {a : Tig}
    (mid1 mid2 : Node) (ha : Node.Tig a ∈ g.nodes) :
    ∀ (l : List Node) (acc : Finset (Nat × Char × Nat × Char)) q,
      (∀ x ∈ l, x ∈ nodeSupport g) →
      q ∈ l.foldl (fun ret nnn =>
        if nnn = Node.Tig a then ret
        else match build_link (Node.Tig a) mid1 mid2 nnn g with
          | some link => insert link ret
          | none => ret) acc →
      q ∈ acc ∨ q.1 ≠ q.2.2.1 := by
  intro l acc q hsub hq
  refine mem_foldl_insert (P := fun q => q.1 ≠ q.2.2.1) l acc ?_ q hq
  intro acc3 nnn q3 hnnn hmem3
  by_cases heq : nnn = Node.Tig a
  · rw [if_pos heq] at hmem3
    exact Or.inl hmem3
  · rw [if_neg heq] at hmem3
    cases hbl : build_link (Node.Tig a) mid1 mid2 nnn g with
    | none =>
      rw [hbl] at hmem3
      exact Or.inl hmem3
    | some link =>
      rw [hbl] at hmem3
      rcases Finset.mem_insert.mp hmem3 with h3 | h3
      · subst h3
        right
        obtain ⟨a2, b2, ha2, hb2, hq1, hq2⟩ := build_link_some hbl
        injection ha2 with haa
        intro hcon
        have hid : a2.id = b2.id := by rw [← hq1, ← hq2]; exact hcon
        have hsupp1 : Node.Tig a2 ∈ nodeSupport g := by
          rw [← haa]
          unfold nodeSupport
          exact List.mem_append_left _ ha
        have hsupp2 : Node.Tig b2 ∈ nodeSupport g := by
          rw [← hb2]
          exact hsub nnn hnnn
        have hok := hinj _ hsupp1 _ hsupp2
        have hab : a2 = b2 := hok hid
        apply heq
        rw [hb2, ← hab, ← haa]
      · exact Or.inl h3

theorem tig_kmer_tig_no_self {g : UGraph} (hinj : TigIdInj g) :
    ∀ q ∈ tig_kmer_tig g, q.1 ≠ q.2.2.1 := by
  intro q hq
  unfold tig_kmer_tig at hq
  refine (mem_foldl_insert (P := fun q => q.1 ≠ q.2.2.1) g.nodes ∅ ?_ q hq).resolve_left
    (Finset.not_mem_empty q)
  intro acc node q2 hnode hmem
  cases node with
  | Kmer nk => exact Or.inl hmem
  | Tig a =>
    refine mem_foldl_insert (P := fun q => q.1 ≠ q.2.2.1) (g.neighbors (Node.Tig a)) acc ?_ q2 hmem
    intro acc2 nn q3 hnn hmem2
    cases nn with
    | Tig b => exact Or.inl hmem2
    | Kmer nk =>
      exact inner3_no_self hinj (Node.Kmer nk) (Node.Kmer nk) hnode
        (g.neighbors (Node.Kmer nk)) acc2 q3
        (fun x hx => neighbors_subset_support hx) hmem2

theorem tig_kmer_kmer_tig_no_self {g : UGraph} (hinj : TigIdInj g) :
    ∀ q ∈ tig_kmer_kmer_tig g, q.1 ≠ q.2.2.1 := by
  intro q hq
  unfold tig_kmer_kmer_tig at hq
  refine (mem_foldl_insert (P := fun q => q.1 ≠ q.2.2.1) g.nodes ∅ ?_ q hq).resolve_left
    (Finset.not_mem_empty q)
  intro acc node q2 hnode hmem
  cases node with
  | Kmer nk => exact Or.inl hmem
  | Tig a =>
    refine mem_foldl_insert (P := fun q => q.1 ≠ q.2.2.1) (g.neighbors (Node.Tig a)) acc ?_ q2 hmem
    intro acc2 nn q3 hnn hmem2
    cases nn with
    | Tig b => exact Or.inl hmem2
    | Kmer nk =>
      refine mem_foldl_insert (P := fun q => q.1 ≠ q.2.2.1) (g.neighbors (Node.Kmer nk)) acc2 ?_ q3 hmem2
      intro acc3 nnn q4 hnnn hmem3
      cases nnn with
      | Tig b => exact Or.inl hmem3
      | Kmer nk2 =>
        exact inner3_no_self hinj (Node.Kmer nk) (Node.Kmer nk2) hnode
          (g.neighbors (Node.Kmer nk2)) acc3 q4
          (fun x hx => neighbors_subset_support hx) hmem3

/-- Modelled from the spec: the final link emission of §4.6, which lives in
the driver that is absent from src/ — the union of the two path enumerations
is deduplicated (a set), quadruples whose unordered ID pair is recorded as
parallel are dropped, self-loops are kept only through the circular rule, and
one canonical self-link `(id, −, id, +)` is added for every circular tig. -/
def finalLinks (g : UGraph) (tigs : List Tig) (parallel : Finset (Nat × Nat)) :
    Finset (Nat × Char × Nat × Char) :=
  ((tig_kmer_tig g ∪ tig_kmer_kmer_tig g).filter
    (fun q => utils.normalize_usize_2tuple (q.1, q.2.2.1) ∉ parallel ∧
      q.1 ≠ q.2.2.1)) ∪
  (tigs.filter (fun t => t.circular)).foldl
    (fun acc t => insert (t.id, '-', t.id, '+') acc) ∅

theorem foldl_insert_iff (l : List Tig)
    (init : Finset (Nat × Char × Nat × Char)) (q : Nat × Char × Nat × Char) :
    q ∈ l.foldl (fun acc t => insert (t.id, '-', t.id, '+') acc) init ↔
      q ∈ init ∨ ∃ t ∈ l, q = (t.id, '-', t.id, '+') := by
  induction l generalizing init with
  | nil => simp
  | cons a t ih =>
    rw [List.foldl_cons, ih]
    simp only [Finset.mem_insert, List.mem_cons]
    constructor
    · rintro ((h | h) | ⟨u, hu, he⟩)
      · exact Or.inr ⟨a, Or.inl rfl, h⟩
      · exact Or.inl h
      · exact Or.inr ⟨u, Or.inr hu, he⟩
    · rintro (h | ⟨u, (hu | hu), he⟩)
      · exact Or.inl (Or.inr h)
      · subst hu
        exact Or.inl (Or.inl he)
      · exact Or.inr ⟨u, hu, he⟩

end unitig

namespace utils

theorem normalize_usize_2tuple_comm (a b : Nat) :
    normalize_usize_2tuple (a, b) = normalize_usize_2tuple (b, a) := by
  unfold normalize_usize_2tuple
  split_ifs with h1 h2 h2
  · exact absurd h2 (by omega)
  · rfl
  · rfl
  · have h3 : a = b := by omega
    subst h3
    rfl

theorem create_link_not_parallel (tig e : Nat) (fe se : List (Nat × List Nat))
    (ob : Bool) (ptig : List (Nat × Nat)) :
    ∀ q ∈ create_link tig e fe se ob ptig,
      normalize_usize_2tuple (q.1, q.2.2.1) ∉ ptig := by
  intro q hq
  unfold create_link at hq
  rw [List.mem_append] at hq
  rcases hq with hq | hq <;>
  · rw [List.mem_filterMap] at hq
    obtain ⟨other, hother, hf⟩ := hq
    split_ifs at hf with hpar hself hob <;>
      (injection hf with h1; subst h1;
       simp only [];
       first
       | exact hpar
       | (rw [normalize_usize_2tuple_comm]; exact hpar))

end utils

/-- C6: a self-loop quadruple occurs in the final link set only through the
canonical `(id, −, id, +)` self-link of a circular tig; every circular tig
contributes exactly that one self-link and non-circular tigs contribute
none. -/
theorem c6_theorem (g : unitig.UGraph) (tigs : List unitig.Tig)
    (parallel : Finset (Nat × Nat)) (hinj : unitig.TigIdInj g)
    (hids : (tigs.map unitig.Tig.id).Nodup) :
    (∀ q ∈ unitig.finalLinks g tigs parallel, q.1 = q.2.2.1 →
      q.2.1 = '-' ∧ q.2.2.2 = '+' ∧
      ∃ t ∈ tigs, t.circular = true ∧ t.id = q.1) ∧
    (∀ t ∈ tigs, t.circular = true →
      (t.id, '-', t.id, '+') ∈ unitig.finalLinks g tigs parallel) ∧
    (∀ t ∈ tigs, t.circular = false →
      ∀ q ∈ unitig.finalLinks g tigs parallel, q.1 = t.id → q.1 ≠ q.2.2.1) ∧
    (∀ q ∈ unitig.tig_kmer_tig g, q.1 ≠ q.2.2.1) ∧
    (∀ q ∈ unitig.tig_kmer_kmer_tig g, q.1 ≠ q.2.2.1) := by
  refine ⟨?_, ?_, ?_, unitig.tig_kmer_tig_no_self hinj,
    unitig.tig_kmer_kmer_tig_no_self hinj⟩
  · intro q hq hself
    unfold unitig.finalLinks at hq
    rcases Finset.mem_union.mp hq with hq | hq
    · obtain ⟨-, -, hne⟩ := Finset.mem_filter.mp hq
      exact absurd hself hne
    · rcases (unitig.foldl_insert_iff _ _ q).mp hq with h | ⟨t, ht, he⟩
      · exact absurd h (Finset.not_mem_empty q)
      · obtain ⟨htmem, htcirc⟩ := List.mem_filter.mp ht
        subst he
        exact ⟨rfl, rfl, t, htmem, htcirc, rfl⟩
  · intro t ht hcirc
    unfold unitig.finalLinks
    refine Finset.mem_union_right _ ?_
    rw [unitig.foldl_insert_iff]
    exact Or.inr ⟨t, List.mem_filter.mpr ⟨ht, hcirc⟩, rfl⟩
  · intro t ht hncirc q hq hqid hself
    unfold unitig.finalLinks at hq
    rcases Finset.mem_union.mp hq with hq | hq
    · obtain ⟨-, -, hne⟩ := Finset.mem_filter.mp hq
      exact hne hself
    · rcases (unitig.foldl_insert_iff _ _ q).mp hq with h | ⟨u, hu, he⟩
      · exact absurd h (Finset.not_mem_empty q)
      · obtain ⟨humem, hucirc⟩ := List.mem_filter.mp hu
        have huid : u.id = t.id := by rw [← hqid, he]
        have hut : u = t :=
          List.inj_on_of_nodup_map hids humem ht huid
        rw [hut] at hucirc
        rw [hncirc] at hucirc
        cases hucirc

/-- Fixture: a circular tig and its unitig graph fragment. -/
def tEx : unitig.Tig := ⟨0, 4, true⟩

/-- Fixture: a unitig graph holding the circular tig and one endpoint. -/
def gEx : unitig.UGraph :=
  ⟨[unitig.Node.Tig tEx, unitig.Node.Kmer ⟨7⟩],
    [(unitig.Node.Tig tEx, unitig.Node.Kmer ⟨7⟩, unitig.Edge.Begin)]⟩

/-- C6 witness: the circular tig receives its canonical self-link. -/
theorem c6_witness :
    unitig.TigIdInj gEx ∧ ([tEx].map unitig.Tig.id).Nodup ∧
    (tEx.id, '-', tEx.id, '+') ∈ unitig.finalLinks gEx [tEx] ∅ :=
  ⟨by decide, by decide,
    (c6_theorem gEx [tEx] ∅ (by decide) (by decide)).2.1 tEx
      (List.mem_cons_self ..) rfl⟩

/-- C7: the final link set contains no quadruple whose unordered ID pair is
recorded as parallel, and `create_link` (the endpoint-map link path of
src/utils.rs) likewise suppresses every pair in its `paralelle_tig` set. -/
theorem c7_theorem (g : unitig.UGraph) (tigs : List unitig.Tig)
    (parallel : Finset (Nat × Nat))
    (hpar : ∀ p ∈ parallel, p.1 ≠ p.2) :
    (∀ q ∈ unitig.finalLinks g tigs parallel,
      utils.normalize_usize_2tuple (q.1, q.2.2.1) ∉ parallel) ∧
    (∀ (tig e : Nat) (fe se : List (Nat × List Nat)) (ob : Bool)
      (ptig : List (Nat × Nat)), ∀ q ∈ utils.create_link tig e fe se ob ptig,
      utils.normalize_usize_2tuple (q.1, q.2.2.1) ∉ ptig) := by
  constructor
  · intro q hq
    unfold unitig.finalLinks at hq
    rcases Finset.mem_union.mp hq with hq | hq
    · exact (Finset.mem_filter.mp hq).2.1
    · rcases (unitig.foldl_insert_iff _ _ q).mp hq with h | ⟨t, ht, he⟩
      · exact absurd h (Finset.not_mem_empty q)
      · subst he
        intro hmem
        have hnorm : utils.normalize_usize_2tuple (t.id, t.id) = (t.id, t.id) := by
          unfold utils.normalize_usize_2tuple
          rw [if_neg (by omega)]
        rw [hnorm] at hmem
        exact hpar _ hmem rfl
  · exact fun tig e fe se ob ptig => utils.create_link_not_parallel tig e fe se ob ptig

/-- C7 witness on the circular-tig fixture with one recorded parallel pair. -/
theorem c7_witness :
    (∀ p ∈ ({(1, 2)} : Finset (Nat × Nat)), p.1 ≠ p.2) ∧
    ∀ q ∈ unitig.finalLinks gEx [tEx] {(1, 2)},
      utils.normalize_usize_2tuple (q.1, q.2.2.1) ∉
        ({(1, 2)} : Finset (Nat × Nat)) :=
  ⟨by decide, (c7_theorem gEx [tEx] {(1, 2)} (by decide)).1⟩
